import Mathlib

/-!
Verification of the little XML library in src/xml.c.

Modelling conventions:
- A C string is modelled as a List Char.  A C string never contains the
  NUL terminator byte, so the end of the list models the terminator.
- Unsigned byte counters (uint) are modelled as Nat; no arithmetic here
  can overflow for realistic string lengths, and the source itself relies
  on that.
- The union XML (tag pointer vs string pointer) together with the is_str
  field is modelled as an inductive sum of the two variants.
- The garbage-collected allocation is irrelevant to values and is dropped.
-/

-- C isspace in the default locale: space, \t, \n, \v, \f, \r.
def cIsSpace (c : Char) : Bool :=
  c == ' ' || c == '\t' || c == '\n' || c == '\x0b' || c == '\x0c' || c == '\r'

-- The NUL character, the C string terminator.
def nulC : Char := Char.ofNat 0

-- uint XML_isnamechar (char c), src/xml.c line 294-296:
-- return c && c != '>' && c != '/' && c != '"' && c != '=' && !isspace(c);
def XML_isnamechar (c : Char) : Bool :=
  c != nulC && c != '>' && c != '/' && c != '"' && c != '=' && !cIsSpace c

-- uint XML_isntnamechar (char c), line 297
def XML_isntnamechar (c : Char) : Bool := !XML_isnamechar c

-- uint XML_isquote (char c), line 298
def XML_isquote (c : Char) : Bool := c == '"'

-- uint XML_islt (char c), line 299
def XML_islt (c : Char) : Bool := c == '<'

-- const char* XML_escape (const char* in), lines 131-147.
-- The two-pass allocate-then-fill of the C code produces exactly this list.
def XML_escape : List Char → List Char
  | [] => []
  | c :: rest =>
    if c = '<' then '&' :: 'l' :: 't' :: ';' :: XML_escape rest
    else if c = '>' then '&' :: 'g' :: 't' :: ';' :: XML_escape rest
    else if c = '&' then '&' :: 'a' :: 'm' :: 'p' :: ';' :: XML_escape rest
    else if c = '"' then '&' :: 'q' :: 'u' :: 'o' :: 't' :: ';' :: XML_escape rest
    else c :: XML_escape rest

-- The entity recognition performed by the nested if-chain after an
-- ampersand in XML_unescape (lines 155-190), as a standalone decision:
-- some (decoded char, remaining input) when the input starts with one of
-- the four literal sequences, none otherwise.
def XML_decode_entity : List Char → Option (Char × List Char)
  | 'l' :: 't' :: ';' :: r => some ('<', r)
  | 'g' :: 't' :: ';' :: r => some ('>', r)
  | 'a' :: 'm' :: 'p' :: ';' :: r => some ('&', r)
  | 'q' :: 'u' :: 'o' :: 't' :: ';' :: r => some ('"', r)
  | _ => none

-- The loop of const char* XML_unescape (const char* in), lines 149-194:
-- each iteration copies one byte, except that an ampersand which starts
-- one of the four recognised entities is decoded and the whole entity is
-- consumed.  The fuel argument only bounds the number of iterations so
-- that the recursion is structural; every iteration consumes at least one
-- input byte, so fuel equal to the input length always suffices, and the
-- wrapper below supplies exactly that.
def XML_unescape_go : Nat → List Char → List Char
  | 0, _ => []
  | _ + 1, [] => []
  | fuel + 1, c :: rest =>
    if c = '&' then
      match XML_decode_entity rest with
      | some (d, r2) => d :: XML_unescape_go fuel r2
      | none => c :: XML_unescape_go fuel rest
    else c :: XML_unescape_go fuel rest

def XML_unescape (s : List Char) : List Char := XML_unescape_go s.length s

-- union XML / struct XML_Tag, lines 61-80: either a plain string (is_str)
-- or a tag with a name, ordered attributes and ordered contents.
inductive XML where
  | text : List Char → XML
  | tag : List Char → List (List Char × List Char) → List XML → XML

-- The escaped length of one string, the XML_is_str branch of XML_strlen
-- (lines 97-109): each reserved byte counts its entity width.
def XML_str_strlen : List Char → Nat
  | [] => 0
  | c :: rest =>
    (if c = '<' then 4 else if c = '>' then 4 else if c = '&' then 5
     else if c = '"' then 6 else 1) + XML_str_strlen rest

-- The attribute contribution of XML_strlen (lines 122-127):
-- 4 fixed bytes ((space)name="value") plus name length plus the escaped
-- value length; attribute values go through XML_strlen's string branch.
def XML_attrs_strlen : List (List Char × List Char) → Nat
  | [] => 0
  | a :: rest => 4 + a.1.length + XML_str_strlen a.2 + XML_attrs_strlen rest

mutual
-- uint XML_strlen (XML xml), lines 95-129.
def XML_strlen : XML → Nat
  | .text s => XML_str_strlen s
  | .tag name attrs contents =>
    (if contents.isEmpty then 3 + name.length
     else 5 + 2 * name.length + XML_strlen_list contents) + XML_attrs_strlen attrs
-- the loop over xml.tag->contents at lines 113-116
def XML_strlen_list : List XML → Nat
  | [] => 0
  | x :: xs => XML_strlen x + XML_strlen_list xs
end

-- The attribute output of XML_as_text (lines 208-220):
-- space, name, =, ", escaped value, ".
def XML_attrs_text : List (List Char × List Char) → List Char
  | [] => []
  | a :: rest => ' ' :: (a.1 ++ '=' :: '"' :: (XML_escape a.2 ++ '"' :: XML_attrs_text rest))

mutual
-- const char* XML_as_text (XML xml), lines 196-242.
def XML_as_text : XML → List Char
  | .text s => XML_escape s
  | .tag name attrs contents =>
    '<' :: (name ++ XML_attrs_text attrs ++
      (if contents.isEmpty then ['/', '>']
       else '>' :: (XML_as_text_list contents ++ '<' :: '/' :: (name ++ ['>']))))
-- the loop over contents at lines 223-228
def XML_as_text_list : List XML → List Char
  | [] => []
  | x :: xs => XML_as_text x ++ XML_as_text_list xs
end

-- XML XML_tag (const char* name, ...), lines 245-276, stripped of its
-- variadic sentinel-scanning calling convention (the spec excludes that
-- convention and takes explicit ordered lists instead): it builds exactly
-- a tag node from the name, the attribute pairs and the children.
def build (name : List Char) (attrs : List (List Char × List Char))
    (children : List XML) : XML :=
  XML.tag name attrs children

-- const char* XML_get_attr (XML xml, const char* name), lines 278-284:
-- first linear scan match by exact string comparison, NULL when absent.
-- The C function is only meaningful on a tag node (reading the attribute
-- fields of a string is undefined), so the text case returns none.
def XML_get_attr_list : List (List Char × List Char) → List Char → Option (List Char)
  | [], _ => none
  | a :: rest, name => if a.1 = name then some a.2 else XML_get_attr_list rest name

def XML_get_attr : XML → List Char → Option (List Char)
  | .text _, _ => none
  | .tag _ attrs _, name => XML_get_attr_list attrs name

-- XML XML_get_child (XML xml, const char* name), lines 285-292:
-- scans contents in order, skips string children (XML_is_str), returns
-- the first tag child with exactly matching name, else the NULL XML.
def XML_get_child_list : List XML → List Char → Option XML
  | [], _ => none
  | .text _ :: rest, name => XML_get_child_list rest name
  | .tag n a c :: rest, name =>
    if n = name then some (XML.tag n a c) else XML_get_child_list rest name

def XML_get_child : XML → List Char → Option XML
  | .text _, _ => none
  | .tag _ _ contents, name => XML_get_child_list contents name

-- A name acceptable to the parser's name scanner: non-empty and made of
-- name characters only.
def goodNameB (s : List Char) : Bool := !s.isEmpty && s.all XML_isnamechar

mutual
-- All element and attribute names in the tree are good names.
def XML_good_namesB : XML → Bool
  | .text _ => true
  | .tag n attrs cs =>
    goodNameB n && attrs.all (fun a => goodNameB a.1) && XML_good_namesB_list cs
def XML_good_namesB_list : List XML → Bool
  | [] => true
  | x :: xs => XML_good_namesB x && XML_good_namesB_list xs
end

mutual
-- No element of the tree has a non-empty children list that serializes
-- to the empty string (which happens exactly when every child is an
-- empty Text): such an element re-parses to the childless form.
def XML_stableB : XML → Bool
  | .text _ => true
  | .tag _ _ cs =>
    (cs.isEmpty || !(XML_as_text_list cs).isEmpty) && XML_stableB_list cs
def XML_stableB_list : List XML → Bool
  | [] => true
  | x :: xs => XML_stableB x && XML_stableB_list xs
end

mutual
-- A size measure on trees, used for strong induction in proofs.
def XML_size : XML → Nat
  | .text _ => 1
  | .tag _ _ cs => 1 + XML_size_list cs
def XML_size_list : List XML → Nat
  | [] => 0
  | x :: xs => 1 + XML_size x + XML_size_list xs
end

/-! ### Lemmas about the entity codec -/

theorem XML_escape_length (s : List Char) :
    (XML_escape s).length = XML_str_strlen s := by
  induction s with
  | nil => rfl
  | cons c rest ih =>
    by_cases h1 : c = '<' <;> by_cases h2 : c = '>' <;> by_cases h3 : c = '&' <;>
      by_cases h4 : c = '"' <;>
      simp [XML_escape, XML_str_strlen, h1, h2, h3, h4, ih] <;> omega

theorem XML_escape_append (a b : List Char) :
    XML_escape (a ++ b) = XML_escape a ++ XML_escape b := by
  induction a with
  | nil => rfl
  | cons c rest ih =>
    by_cases h1 : c = '<' <;> by_cases h2 : c = '>' <;> by_cases h3 : c = '&' <;>
      by_cases h4 : c = '"' <;> simp [XML_escape, h1, h2, h3, h4, ih]

theorem XML_escape_eq_nil_iff (s : List Char) : XML_escape s = [] ↔ s = [] := by
  cases s with
  | nil => simp [XML_escape]
  | cons c rest =>
    by_cases h1 : c = '<' <;> by_cases h2 : c = '>' <;> by_cases h3 : c = '&' <;>
      by_cases h4 : c = '"' <;> simp [XML_escape, h1, h2, h3, h4]

theorem XML_escape_chars (s : List Char) :
    ∀ c ∈ XML_escape s, c ≠ '<' ∧ c ≠ '"' := by
  induction s with
  | nil => simp [XML_escape]
  | cons c rest ih =>
    intro d hd
    by_cases h1 : c = '<'
    · subst h1
      rw [show XML_escape ('<' :: rest) = '&' :: 'l' :: 't' :: ';' :: XML_escape rest
        from rfl] at hd
      simp only [List.mem_cons] at hd
      obtain rfl | rfl | rfl | rfl | hd := hd
      · decide
      · decide
      · decide
      · decide
      · exact ih d hd
    · by_cases h2 : c = '>'
      · subst h2
        rw [show XML_escape ('>' :: rest) = '&' :: 'g' :: 't' :: ';' :: XML_escape rest
          from rfl] at hd
        simp only [List.mem_cons] at hd
        obtain rfl | rfl | rfl | rfl | hd := hd
        · decide
        · decide
        · decide
        · decide
        · exact ih d hd
      · by_cases h3 : c = '&'
        · subst h3
          rw [show XML_escape ('&' :: rest)
              = '&' :: 'a' :: 'm' :: 'p' :: ';' :: XML_escape rest from rfl] at hd
          simp only [List.mem_cons] at hd
          obtain rfl | rfl | rfl | rfl | rfl | hd := hd
          · decide
          · decide
          · decide
          · decide
          · decide
          · exact ih d hd
        · by_cases h4 : c = '"'
          · subst h4
            rw [show XML_escape ('"' :: rest)
                = '&' :: 'q' :: 'u' :: 'o' :: 't' :: ';' :: XML_escape rest from rfl] at hd
            simp only [List.mem_cons] at hd
            obtain rfl | rfl | rfl | rfl | rfl | rfl | hd := hd
            · decide
            · decide
            · decide
            · decide
            · decide
            · decide
            · exact ih d hd
          · rw [XML_escape] at hd
            simp only [h1, h2, h3, h4, if_false, List.mem_cons] at hd
            obtain rfl | hd := hd
            · exact ⟨h1, h4⟩
            · exact ih d hd

theorem XML_decode_entity_length (l : List Char) (p : Char × List Char)
    (h : XML_decode_entity l = some p) : p.2.length + 3 ≤ l.length := by
  obtain ⟨d, r2⟩ := p
  rw [XML_decode_entity.eq_def] at h
  split at h
  all_goals first
  | (simp only [Option.some.injEq, Prod.mk.injEq] at h
     obtain ⟨h1, h2⟩ := h
     subst h2
     simp
     omega)
  | (simp only [Option.some.injEq, Prod.mk.injEq] at h
     obtain ⟨h1, h2⟩ := h
     subst h2
     simp)
  | simp at h

theorem XML_unescape_go_fuel (f : Nat) :
    ∀ s : List Char, s.length ≤ f → XML_unescape_go f s = XML_unescape s := by
  induction f using Nat.strong_induction_on with
  | _ f ih =>
    intro s hs
    cases s with
    | nil => cases f <;> rfl
    | cons c rest =>
      cases f with
      | zero => simp at hs
      | succ f =>
        simp only [List.length_cons] at hs
        rw [XML_unescape, List.length_cons]
        simp only [XML_unescape_go]
        by_cases hc : c = '&'
        · rw [if_pos hc, if_pos hc]
          cases hde : XML_decode_entity rest with
          | none =>
            show c :: XML_unescape_go f rest = c :: XML_unescape_go rest.length rest
            rw [ih f (by omega) rest (by omega),
              ih rest.length (by omega) rest (by omega)]
          | some p =>
            obtain ⟨d, r2⟩ := p
            have hlen := XML_decode_entity_length rest (d, r2) hde
            simp only at hlen
            show d :: XML_unescape_go f r2 = d :: XML_unescape_go rest.length r2
            rw [ih f (by omega) r2 (by omega),
              ih rest.length (by omega) r2 (by omega)]
        · rw [if_neg hc, if_neg hc]
          rw [ih f (by omega) rest (by omega),
            ih rest.length (by omega) rest (by omega)]

theorem XML_unescape_nil : XML_unescape [] = [] := rfl

theorem XML_unescape_entity (r : List Char) (d : Char) (r2 : List Char)
    (h : XML_decode_entity r = some (d, r2)) :
    XML_unescape ('&' :: r) = d :: XML_unescape r2 := by
  have hlen := XML_decode_entity_length r (d, r2) h
  simp only at hlen
  rw [XML_unescape, List.length_cons, XML_unescape_go, if_pos rfl, h]
  show d :: XML_unescape_go r.length r2 = d :: XML_unescape r2
  rw [XML_unescape_go_fuel r.length r2 (by omega)]

theorem XML_unescape_amp_none (r : List Char) (h : XML_decode_entity r = none) :
    XML_unescape ('&' :: r) = '&' :: XML_unescape r := by
  rw [XML_unescape, List.length_cons, XML_unescape_go, if_pos rfl, h]
  rfl

theorem XML_unescape_cons_of_ne (c : Char) (l : List Char) (h : c ≠ '&') :
    XML_unescape (c :: l) = c :: XML_unescape l := by
  rw [XML_unescape, List.length_cons, XML_unescape_go, if_neg h]
  rfl

theorem XML_unescape_escape (s : List Char) :
    XML_unescape (XML_escape s) = s := by
  induction s with
  | nil => rfl
  | cons c rest ih =>
    by_cases h1 : c = '<'
    · subst h1
      rw [show XML_escape ('<' :: rest) = '&' :: 'l' :: 't' :: ';' :: XML_escape rest
        from rfl, XML_unescape_entity ('l' :: 't' :: ';' :: XML_escape rest) '<' (XML_escape rest) rfl, ih]
    · by_cases h2 : c = '>'
      · subst h2
        rw [show XML_escape ('>' :: rest) = '&' :: 'g' :: 't' :: ';' :: XML_escape rest
          from rfl, XML_unescape_entity ('g' :: 't' :: ';' :: XML_escape rest) '>' (XML_escape rest) rfl, ih]
      · by_cases h3 : c = '&'
        · subst h3
          rw [show XML_escape ('&' :: rest)
              = '&' :: 'a' :: 'm' :: 'p' :: ';' :: XML_escape rest from rfl,
            XML_unescape_entity ('a' :: 'm' :: 'p' :: ';' :: XML_escape rest) '&' (XML_escape rest) rfl, ih]
        · by_cases h4 : c = '"'
          · subst h4
            rw [show XML_escape ('"' :: rest)
                = '&' :: 'q' :: 'u' :: 'o' :: 't' :: ';' :: XML_escape rest from rfl,
              XML_unescape_entity ('q' :: 'u' :: 'o' :: 't' :: ';' :: XML_escape rest) '"' (XML_escape rest) rfl, ih]
          · rw [XML_escape]
            simp only [h1, h2, h3, h4, if_false]
            rw [XML_unescape_cons_of_ne c _ h3, ih]

theorem XML_decode_entity_none_iff (r : List Char) :
    XML_decode_entity r = none ↔
      (∀ r2, r ≠ 'l' :: 't' :: ';' :: r2) ∧ (∀ r2, r ≠ 'g' :: 't' :: ';' :: r2) ∧
      (∀ r2, r ≠ 'a' :: 'm' :: 'p' :: ';' :: r2) ∧
      (∀ r2, r ≠ 'q' :: 'u' :: 'o' :: 't' :: ';' :: r2) := by
  constructor
  · intro h
    refine ⟨?_, ?_, ?_, ?_⟩ <;> intro r2 hr <;> subst hr <;>
      simp [XML_decode_entity] at h
  · intro h
    rw [XML_decode_entity.eq_def]
    split
    · exact absurd rfl (h.1 _)
    · exact absurd rfl (h.2.1 _)
    · exact absurd rfl (h.2.2.1 _)
    · exact absurd rfl (h.2.2.2 _)
    · rfl

theorem XML_unescape_go_length (f : Nat) :
    ∀ s : List Char, (XML_unescape_go f s).length ≤ s.length := by
  induction f with
  | zero => intro s; simp [XML_unescape_go]
  | succ f ih =>
    intro s
    match s with
    | [] => simp [XML_unescape_go]
    | c :: rest =>
      rw [XML_unescape_go]
      by_cases hc : c = '&'
      · rw [if_pos hc]
        cases hde : XML_decode_entity rest with
        | none => have := ih rest; simp; omega
        | some p =>
          obtain ⟨d, r2⟩ := p
          have hlen := XML_decode_entity_length rest (d, r2) hde
          simp only at hlen
          have := ih r2
          simp; omega
      · rw [if_neg hc]
        have := ih rest
        simp; omega

theorem XML_unescape_length (s : List Char) :
    (XML_unescape s).length ≤ s.length := XML_unescape_go_length s.length s

/-! ### Lemmas about the size estimator and serializer -/

theorem XML_attrs_text_length (a : List (List Char × List Char)) :
    (XML_attrs_text a).length = XML_attrs_strlen a := by
  induction a with
  | nil => rfl
  | cons p rest ih =>
    rw [XML_attrs_text, XML_attrs_strlen]
    simp [XML_escape_length, ih]
    omega

mutual
theorem XML_strlen_eq : ∀ x : XML, XML_strlen x = (XML_as_text x).length
  | .text s => by rw [XML_strlen, XML_as_text, XML_escape_length]
  | .tag n a cs => by
    have hl := XML_strlen_list_eq cs
    rw [XML_strlen, XML_as_text]
    cases cs with
    | nil => simp [XML_attrs_text_length]; omega
    | cons x xs =>
      simp only [List.isEmpty_cons, if_neg Bool.false_ne_true, Bool.false_eq_true,
        if_false, List.length_cons, List.length_append, XML_attrs_text_length, hl]
      simp
      omega
theorem XML_strlen_list_eq :
    ∀ l : List XML, XML_strlen_list l = (XML_as_text_list l).length
  | [] => rfl
  | x :: xs => by
    have h1 := XML_strlen_eq x
    have h2 := XML_strlen_list_eq xs
    rw [XML_strlen_list, XML_as_text_list]
    simp [h1, h2]
end

/-! ### Lemmas about the lookup operations -/

theorem XML_get_attr_list_none_iff (a : List (List Char × List Char)) (key : List Char) :
    XML_get_attr_list a key = none ↔ ∀ p ∈ a, p.1 ≠ key := by
  induction a with
  | nil => simp [XML_get_attr_list]
  | cons p rest ih =>
    rw [XML_get_attr_list]
    by_cases h : p.1 = key
    · simp [h]
    · simp [h, ih]

theorem XML_get_attr_list_first (pre : List (List Char × List Char)) (key v : List Char)
    (post : List (List Char × List Char)) (h : ∀ p ∈ pre, p.1 ≠ key) :
    XML_get_attr_list (pre ++ (key, v) :: post) key = some v := by
  induction pre with
  | nil => simp [XML_get_attr_list]
  | cons p rest ih =>
    rw [List.cons_append, XML_get_attr_list]
    rw [if_neg (h p (List.mem_cons_self p rest))]
    exact ih (fun q hq => h q (List.mem_cons_of_mem p hq))

-- Whether XML_get_child would select this child: only a tag child with
-- exactly matching name.
def XML_child_matches (key : List Char) : XML → Bool
  | .text _ => false
  | .tag n _ _ => decide (n = key)

theorem XML_get_child_list_none_iff (cs : List XML) (key : List Char) :
    XML_get_child_list cs key = none ↔ ∀ x ∈ cs, XML_child_matches key x = false := by
  induction cs with
  | nil => simp [XML_get_child_list]
  | cons x rest ih =>
    cases x with
    | text s => rw [XML_get_child_list]; simp [XML_child_matches, ih]
    | tag n a c =>
      rw [XML_get_child_list]
      by_cases h : n = key
      · simp [h, XML_child_matches]
      · simp [h, XML_child_matches, ih]

theorem XML_get_child_list_first (pre : List XML) (key : List Char)
    (a2 : List (List Char × List Char)) (c2 post : List XML)
    (h : ∀ x ∈ pre, XML_child_matches key x = false) :
    XML_get_child_list (pre ++ XML.tag key a2 c2 :: post) key = some (XML.tag key a2 c2) := by
  induction pre with
  | nil => simp [XML_get_child_list]
  | cons x rest ih =>
    have hx := h x (List.mem_cons_self x rest)
    have hrest : ∀ y ∈ rest, XML_child_matches key y = false :=
      fun y hy => h y (List.mem_cons_of_mem x hy)
    cases x with
    | text s => rw [List.cons_append, XML_get_child_list]; exact ih hrest
    | tag n a c =>
      rw [XML_child_matches] at hx
      rw [List.cons_append, XML_get_child_list, if_neg (by simpa using hx)]
      exact ih hrest

theorem XML_escape_id (s : List Char)
    (h : ∀ c ∈ s, c ≠ '<' ∧ c ≠ '>' ∧ c ≠ '&' ∧ c ≠ '"') : XML_escape s = s := by
  induction s with
  | nil => rfl
  | cons c rest ih =>
    obtain ⟨h1, h2, h3, h4⟩ := h c (List.mem_cons_self c rest)
    rw [XML_escape, if_neg h1, if_neg h2, if_neg h3, if_neg h4,
      ih (fun d hd => h d (List.mem_cons_of_mem c hd))]

/-! ### Claims about the codec, the size estimator, and the lookups -/

/-- Claim C1: for every node (Text or Element), the size estimator agrees with
the length of the serialized text: XML_strlen x equals the length of
XML_as_text x; in particular a childless element measures 3 bytes plus its
name length plus the attribute contributions, and an element with children
measures 5 bytes plus twice its name length plus the child and attribute
contributions. -/
theorem C1_measure_eq_serialized_length :
    (∀ x : XML, XML_strlen x = (XML_as_text x).length) ∧
    (∀ (n : List Char) (a : List (List Char × List Char)),
      XML_strlen (XML.tag n a []) = 3 + n.length + XML_attrs_strlen a) ∧
    (∀ (n : List Char) (a : List (List Char × List Char)) (cs : List XML),
      cs ≠ [] →
      XML_strlen (XML.tag n a cs)
        = 5 + 2 * n.length + XML_strlen_list cs + XML_attrs_strlen a) := by
  refine ⟨XML_strlen_eq, ?_, ?_⟩
  · intro n a
    rw [XML_strlen]
    simp
  · intro n a cs h
    rw [XML_strlen]
    cases cs with
    | nil => exact absurd rfl h
    | cons x xs => simp <;> omega

/-- Witness for Claim C1 at a concrete element with one child. -/
theorem C1_measure_eq_serialized_length_witness :
    XML_strlen (XML.tag ['a'] [] [XML.text ['x']])
      = 5 + 2 * (['a'] : List Char).length + XML_strlen_list [XML.text ['x']]
        + XML_attrs_strlen [] :=
  C1_measure_eq_serialized_length.2.2 ['a'] [] [XML.text ['x']]
    (List.cons_ne_nil _ _)

/-- Claim C3: unescape inverts escape on every string, and the converse fails:
there is a string s with XML_escape (XML_unescape s) differing from s. -/
theorem C3_unescape_escape_round_trip :
    (∀ s : List Char, XML_unescape (XML_escape s) = s) ∧
    (∃ s : List Char, XML_escape (XML_unescape s) ≠ s) :=
  ⟨XML_unescape_escape, ⟨['&', 'x'], by decide⟩⟩

/-- Claim C4: escape maps the two angle brackets to 4-character entities, the
ampersand to the 5-character entity, the double quote to the 6-character
entity, passes every other byte through unchanged in input order (it
processes the input byte by byte), escapes nothing else (in particular not
the apostrophe, character 39), and consequently serializing a Text node
whose payload has none of the four reserved characters returns the payload
unchanged. -/
theorem C4_escape_spec :
    (XML_escape ['<'] = "&lt;".toList ∧ ("&lt;".toList).length = 4) ∧
    (XML_escape ['>'] = "&gt;".toList ∧ ("&gt;".toList).length = 4) ∧
    (XML_escape ['&'] = "&amp;".toList ∧ ("&amp;".toList).length = 5) ∧
    (XML_escape ['"'] = "&quot;".toList ∧ ("&quot;".toList).length = 6) ∧
    (∀ c : Char, c ≠ '<' → c ≠ '>' → c ≠ '&' → c ≠ '"' → XML_escape [c] = [c]) ∧
    XML_escape [Char.ofNat 39] = [Char.ofNat 39] ∧
    (∀ (c : Char) (s : List Char), XML_escape (c :: s) = XML_escape [c] ++ XML_escape s) ∧
    (∀ s : List Char, (∀ c ∈ s, c ≠ '<' ∧ c ≠ '>' ∧ c ≠ '&' ∧ c ≠ '"') →
      XML_as_text (XML.text s) = s) := by
  refine ⟨⟨by decide, by decide⟩, ⟨by decide, by decide⟩, ⟨by decide, by decide⟩,
    ⟨by decide, by decide⟩, ?_, by decide, ?_, ?_⟩
  · intro c h1 h2 h3 h4
    rw [XML_escape, if_neg h1, if_neg h2, if_neg h3, if_neg h4, XML_escape]
  · intro c s
    have : c :: s = [c] ++ s := rfl
    rw [this, XML_escape_append]
  · intro s h
    rw [XML_as_text, XML_escape_id s h]

/-- Witness for Claim C4: the pass-through and text-identity clauses at
concrete inputs. -/
theorem C4_escape_spec_witness :
    XML_escape ['x'] = ['x'] ∧ XML_as_text (XML.text "hi".toList) = "hi".toList :=
  ⟨C4_escape_spec.2.2.2.2.1 'x' (by decide) (by decide) (by decide) (by decide),
   C4_escape_spec.2.2.2.2.2.2.2 "hi".toList (by decide)⟩

/-- Claim C5: unescape decodes an ampersand followed by exactly one of the
four literal sequences into the corresponding character and continues after
the entity; an ampersand followed by anything else (the decode yielding
none, which happens exactly when the tail starts with none of the four
sequences, including a recognised-looking sequence truncated at end of
string such as a trailing "&am") is copied through literally, as is every
non-ampersand byte. -/
theorem C5_unescape_spec :
    (∀ r, XML_unescape ('&' :: 'l' :: 't' :: ';' :: r) = '<' :: XML_unescape r) ∧
    (∀ r, XML_unescape ('&' :: 'g' :: 't' :: ';' :: r) = '>' :: XML_unescape r) ∧
    (∀ r, XML_unescape ('&' :: 'a' :: 'm' :: 'p' :: ';' :: r) = '&' :: XML_unescape r) ∧
    (∀ r, XML_unescape ('&' :: 'q' :: 'u' :: 'o' :: 't' :: ';' :: r) = '"' :: XML_unescape r) ∧
    (∀ r, XML_decode_entity r = none → XML_unescape ('&' :: r) = '&' :: XML_unescape r) ∧
    (∀ r, XML_decode_entity r = none ↔
      ((∀ r2, r ≠ 'l' :: 't' :: ';' :: r2) ∧ (∀ r2, r ≠ 'g' :: 't' :: ';' :: r2) ∧
       (∀ r2, r ≠ 'a' :: 'm' :: 'p' :: ';' :: r2) ∧
       (∀ r2, r ≠ 'q' :: 'u' :: 'o' :: 't' :: ';' :: r2))) ∧
    (∀ (c : Char) (r : List Char), c ≠ '&' → XML_unescape (c :: r) = c :: XML_unescape r) ∧
    XML_unescape "x&am".toList = "x&am".toList := by
  refine ⟨?_, ?_, ?_, ?_, XML_unescape_amp_none, XML_decode_entity_none_iff,
    XML_unescape_cons_of_ne, by decide⟩
  · intro r; exact XML_unescape_entity ('l' :: 't' :: ';' :: r) '<' r rfl
  · intro r; exact XML_unescape_entity ('g' :: 't' :: ';' :: r) '>' r rfl
  · intro r; exact XML_unescape_entity ('a' :: 'm' :: 'p' :: ';' :: r) '&' r rfl
  · intro r; exact XML_unescape_entity ('q' :: 'u' :: 'o' :: 't' :: ';' :: r) '"' r rfl

/-- Witness for Claim C5: the literal-copy clauses at concrete inputs. -/
theorem C5_unescape_spec_witness :
    XML_unescape ['&', 'x'] = '&' :: XML_unescape ['x'] ∧
    XML_unescape ['y'] = 'y' :: XML_unescape [] :=
  ⟨C5_unescape_spec.2.2.2.2.1 ['x'] (by decide),
   C5_unescape_spec.2.2.2.2.2.2.1 'y' [] (by decide)⟩

/-- Claim C8: get_attr on an element scans the attribute list in insertion
order: it returns none exactly when no pair has the requested name, and it
returns the value of the first pair whose name matches byte-for-byte, so a
present empty value yields some of the empty string (distinct from none)
and duplicates yield the first value. -/
theorem C8_get_attr_first_match :
    ∀ (tn key : List Char) (attrs : List (List Char × List Char)) (cs : List XML),
      (XML_get_attr (XML.tag tn attrs cs) key = none ↔ ∀ p ∈ attrs, p.1 ≠ key) ∧
      (∀ pre v post, attrs = pre ++ (key, v) :: post → (∀ p ∈ pre, p.1 ≠ key) →
        XML_get_attr (XML.tag tn attrs cs) key = some v) ∧
      (∀ v : List Char, (some v : Option (List Char)) ≠ none) := by
  intro tn key attrs cs
  refine ⟨?_, ?_, fun v => by simp⟩
  · rw [XML_get_attr]; exact XML_get_attr_list_none_iff attrs key
  · intro pre v post heq hpre
    rw [XML_get_attr, heq]
    exact XML_get_attr_list_first pre key v post hpre

/-- Witness for Claim C8: duplicate names yield the first value, and an
empty present value is distinguishable from absence. -/
theorem C8_get_attr_first_match_witness :
    XML_get_attr (XML.tag ['t'] [(['a'], ['1']), (['a'], ['2'])] []) ['a'] = some ['1'] ∧
    XML_get_attr (XML.tag ['t'] [(['a'], [])] []) ['a'] = some [] :=
  ⟨(C8_get_attr_first_match ['t'] ['a'] [(['a'], ['1']), (['a'], ['2'])] []).2.1
      [] ['1'] [(['a'], ['2'])] rfl (by simp),
   (C8_get_attr_first_match ['t'] ['a'] [(['a'], [])] []).2.1
      [] [] [] rfl (by simp)⟩

/-- Claim C9: get_child on an element scans the children in insertion order,
skips every Text child regardless of its payload (even a payload equal to
the searched name, or empty), and returns the first element child whose
name matches exactly, or none when no element child matches. -/
theorem C9_get_child_first_element :
    ∀ (tn key : List Char) (attrs : List (List Char × List Char)) (cs : List XML),
      (XML_get_child (XML.tag tn attrs cs) key = none ↔
        ∀ x ∈ cs, XML_child_matches key x = false) ∧
      (∀ (s : List Char) (rest : List XML),
        XML_get_child (XML.tag tn attrs (XML.text s :: rest)) key
          = XML_get_child (XML.tag tn attrs rest) key) ∧
      (∀ pre a2 c2 post, cs = pre ++ XML.tag key a2 c2 :: post →
        (∀ x ∈ pre, XML_child_matches key x = false) →
        XML_get_child (XML.tag tn attrs cs) key = some (XML.tag key a2 c2)) := by
  intro tn key attrs cs
  refine ⟨?_, ?_, ?_⟩
  · rw [XML_get_child]; exact XML_get_child_list_none_iff cs key
  · intro s rest
    rw [XML_get_child, XML_get_child, XML_get_child_list]
  · intro pre a2 c2 post heq hpre
    rw [XML_get_child, heq]
    exact XML_get_child_list_first pre key a2 c2 post hpre

/-- Witness for Claim C9: a Text child whose payload equals the searched name
is skipped and the later element child is returned. -/
theorem C9_get_child_first_element_witness :
    XML_get_child (XML.tag ['p'] [] [XML.text ['c'], XML.tag ['c'] [] []]) ['c']
      = some (XML.tag ['c'] [] []) :=
  (C9_get_child_first_element ['p'] ['c'] [] [XML.text ['c'], XML.tag ['c'] [] []]).2.2
    [XML.text ['c']] [] [] [] rfl (by decide)

/-- Claim C10: unescape never produces output longer than its input, the
invariant that makes the single allocation of input length plus one bytes
sufficient; a decoded entity strictly shrinks the text (by 3 bytes for the
angle-bracket entities, 4 for the ampersand entity, 5 for the quote
entity). -/
theorem C10_unescape_length_le :
    (∀ s : List Char, (XML_unescape s).length ≤ s.length) ∧
    (∀ r, (XML_unescape ('&' :: 'l' :: 't' :: ';' :: r)).length + 3
      ≤ ('&' :: 'l' :: 't' :: ';' :: r).length) ∧
    (∀ r, (XML_unescape ('&' :: 'a' :: 'm' :: 'p' :: ';' :: r)).length + 4
      ≤ ('&' :: 'a' :: 'm' :: 'p' :: ';' :: r).length) ∧
    (∀ r, (XML_unescape ('&' :: 'q' :: 'u' :: 'o' :: 't' :: ';' :: r)).length + 5
      ≤ ('&' :: 'q' :: 'u' :: 'o' :: 't' :: ';' :: r).length) := by
  refine ⟨XML_unescape_length, ?_, ?_, ?_⟩
  · intro r
    rw [XML_unescape_entity ('l' :: 't' :: ';' :: r) '<' r rfl]
    have := XML_unescape_length r
    simp <;> omega
  · intro r
    rw [XML_unescape_entity ('a' :: 'm' :: 'p' :: ';' :: r) '&' r rfl]
    have := XML_unescape_length r
    simp <;> omega
  · intro r
    rw [XML_unescape_entity ('q' :: 'u' :: 'o' :: 't' :: ';' :: r) '"' r rfl]
    have := XML_unescape_length r
    simp <;> omega


/-! ### The parser -/

-- void XML_eatws (const char** pp), line 311: advance the cursor over
-- whitespace.  The Nat argument tracks the byte offset of the cursor from
-- the start of the whole input, mirroring the C pointer p; offsets end up
-- in failure values (the C failp and failspot).
def XML_eatws : List Char → Nat → List Char × Nat
  | [], pos => ([], pos)
  | c :: rest, pos =>
    if cIsSpace c then XML_eatws rest (pos + 1) else (c :: rest, pos)

-- const char* XML_extract_until (const char** pp, uint (* f) (char)),
-- lines 300-309: scan while the byte is nonzero and f fails; succeed,
-- returning the scanned prefix and advancing the cursor, exactly when f
-- holds at the stopping byte (at the end of the input the stopping byte
-- is the NUL terminator).
def XML_extract_until (f : Char → Bool) : List Char → Nat →
    Option (List Char × List Char × Nat)
  | [], pos => if f nulC then some ([], [], pos) else none
  | c :: rest, pos =>
    if f c then some ([], c :: rest, pos)
    else
      match XML_extract_until f rest (pos + 1) with
      | some (ex, r, p) => some (c :: ex, r, p)
      | none => none

-- const char* XML_extract_name (const char** pp), line 310
def XML_extract_name (l : List Char) (pos : Nat) :
    Option (List Char × List Char × Nat) :=
  XML_extract_until XML_isntnamechar l pos

-- The closing-tag name comparison inside XML_parse_tag, lines 370-374:
-- for each byte of the expected name in order, *p++ must equal it; on a
-- mismatch the failure offset is just past the offending byte.  At the
-- end of the input the NUL terminator is compared and mismatches, since
-- the expected name consists of name characters, never NUL.
def XML_matchlit : List Char → List Char → Nat → Except Nat (List Char × Nat)
  | [], input, pos => .ok (input, pos)
  | c :: cs, input, pos =>
    match input with
    | d :: rest => if d = c then XML_matchlit cs rest (pos + 1) else .error (pos + 1)
    | [] => .error (pos + 1)

-- The attribute loop of XML_parse_tag, lines 323-342: while the cursor is
-- at a name character: read a name, skip whitespace, require an equals
-- sign, skip whitespace, require an opening quote, read the raw value up
-- to the closing quote, require the quote, unescape the value, append the
-- pair, skip whitespace, and require that input remains.  Errors carry the
-- C failp offset.  The fuel only bounds the number of loop iterations so
-- that the recursion is structural; every iteration consumes at least four
-- bytes, so any fuel above the input length suffices (see
-- XML_parse_attrs_total) and the caller supplies that, which makes the
-- out-of-fuel result none unreachable.
def XML_parse_attrs : Nat → List Char → Nat →
    Option (Except Nat (List (List Char × List Char) × List Char × Nat))
  | 0, _, _ => none
  | _ + 1, [], pos => some (.ok ([], [], pos))
  | fuel + 1, c :: r0, pos =>
    if XML_isnamechar c then
      match XML_extract_name (c :: r0) pos with
      | none => some (.error pos)
      | some (attrname, r1, pos1) =>
        if attrname.isEmpty then some (.error pos1)
        else
          match XML_eatws r1 pos1 with
          | (r2, pos2) =>
            match r2 with
            | [] => some (.error (pos2 + 1))
            | c2 :: r3 =>
              if c2 = '=' then
                match XML_eatws r3 (pos2 + 1) with
                | (r4, pos4) =>
                  match r4 with
                  | [] => some (.error (pos4 + 1))
                  | c4 :: r5 =>
                    if c4 = '"' then
                      match XML_extract_until XML_isquote r5 (pos4 + 1) with
                      | none => some (.error (pos4 + 1))
                      | some (attrvalesc, r6, pos6) =>
                        match r6 with
                        | [] => some (.error (pos6 + 1))
                        | c6 :: r7 =>
                          if c6 = '"' then
                            match XML_eatws r7 (pos6 + 1) with
                            | (r8, pos8) =>
                              match r8 with
                              | [] => some (.error pos8)
                              | c8 :: r9 =>
                                match XML_parse_attrs fuel (c8 :: r9) pos8 with
                                | none => none
                                | some (.error e) => some (.error e)
                                | some (.ok (attrs, rr, pp)) =>
                                  some (.ok ((attrname, XML_unescape attrvalesc)
                                    :: attrs, rr, pp))
                          else some (.error (pos6 + 1))
                    else some (.error (pos4 + 1))
              else some (.error (pos2 + 1))
    else some (.ok ([], c :: r0, pos))

mutual
-- XML XML_parse_tag (const char** pp), lines 315-411: require the opening
-- angle bracket, skip whitespace, require input, read the non-empty tag
-- name, skip whitespace, parse the attributes, then either a self-closing
-- slash followed (after whitespace) by the closing angle bracket, or the
-- closing angle bracket followed by the contents loop, or fail.  The
-- result carries the parsed node, the remaining input, and the new cursor
-- offset; an error carries the C failp offset.  The fuel only bounds the
-- nesting of the mutual recursion so that it is structural; twice the
-- input length plus one always suffices (see XML_parse_total), so the
-- out-of-fuel result none is unreachable from the top entry point.
def XML_parse_tag : Nat → List Char → Nat →
    Option (Except Nat (XML × List Char × Nat)) :=
  fun fuel input pos =>
    match fuel with
    | 0 => none
    | fuel + 1 =>
      match input with
      | [] => some (.error (pos + 1))
      | c :: r1 =>
        if c = '<' then
          match XML_eatws r1 (pos + 1) with
          | (r2, pos2) =>
            match r2 with
            | [] => some (.error pos2)
            | _ :: _ =>
              match XML_extract_name r2 pos2 with
              | none => some (.error pos2)
              | some (name, r3, pos3) =>
                if name.isEmpty then some (.error pos3)
                else
                  match XML_eatws r3 pos3 with
                  | (r4, pos4) =>
                    match XML_parse_attrs (r4.length + 1) r4 pos4 with
                    | none => none
                    | some (.error e) => some (.error e)
                    | some (.ok (attrs, r5, pos5)) =>
                      match r5 with
                      | [] => some (.error pos5)
                      | c5 :: r6 =>
                        if c5 = '/' then
                          match XML_eatws r6 (pos5 + 1) with
                          | (r7, pos7) =>
                            match r7 with
                            | [] => some (.error (pos7 + 1))
                            | c7 :: r8 =>
                              if c7 = '>' then
                                some (.ok (XML.tag name attrs [], r8, pos7 + 1))
                              else some (.error (pos7 + 1))
                        else if c5 = '>' then
                          match r6 with
                          | [] => some (.error (pos5 + 1))
                          | c6 :: r7 =>
                            XML_parse_contents fuel name attrs [] (c6 :: r7) (pos5 + 1)
                        else some (.error pos5)
        else some (.error (pos + 1))

-- The contents loop of XML_parse_tag, lines 362-404: at an opening angle
-- bracket, look (after whitespace) for a slash; if found, match the
-- closing tag name, skip whitespace and require the closing angle
-- bracket, returning the finished element; otherwise restore the cursor
-- to the bracket and parse a child element there, appending it.  At any
-- other byte, read a text run up to the next opening bracket, unescape
-- it, and append it as a text child.  Failures of a child parse propagate
-- unchanged (the C ERR_PROP); new failures record the current offset.
def XML_parse_contents : Nat → List Char → List (List Char × List Char) →
    List XML → List Char → Nat → Option (Except Nat (XML × List Char × Nat)) :=
  fun fuel name attrs acc input pos =>
    match fuel with
    | 0 => none
    | fuel + 1 =>
      match input with
      | [] =>
        match XML_extract_until XML_islt [] pos with
        | none => some (.error pos)
        | some (textesc, rr, pos1) =>
          XML_parse_contents fuel name attrs
            (acc ++ [XML.text (XML_unescape textesc)]) rr pos1
      | c :: r1 =>
        if c = '<' then
          match XML_eatws r1 (pos + 1) with
          | (r2, pos2) =>
            match r2 with
            | c2 :: r3 =>
              if c2 = '/' then
                match XML_eatws r3 (pos2 + 1) with
                | (r4, pos4) =>
                  match XML_matchlit name r4 pos4 with
                  | .error e => some (.error e)
                  | .ok (r5, pos5) =>
                    match XML_eatws r5 pos5 with
                    | (r6, pos6) =>
                      match r6 with
                      | [] => some (.error (pos6 + 1))
                      | c6 :: r7 =>
                        if c6 = '>' then
                          some (.ok (XML.tag name attrs acc, r7, pos6 + 1))
                        else some (.error (pos6 + 1))
              else
                match XML_parse_tag fuel (c :: r1) pos with
                | none => none
                | some (.error e) => some (.error e)
                | some (.ok (child, rc, posc)) =>
                  XML_parse_contents fuel name attrs (acc ++ [child]) rc posc
            | [] =>
              match XML_parse_tag fuel (c :: r1) pos with
              | none => none
              | some (.error e) => some (.error e)
              | some (.ok (child, rc, posc)) =>
                XML_parse_contents fuel name attrs (acc ++ [child]) rc posc
        else
          match XML_extract_until XML_islt (c :: r1) pos with
          | none => some (.error pos)
          | some (textesc, rr, pos1) =>
            XML_parse_contents fuel name attrs
              (acc ++ [XML.text (XML_unescape textesc)]) rr pos1
end

-- XML XML_parse (const char* p), lines 412-417: parse one element from
-- the start; the result is valid exactly when that parse succeeded and
-- consumed the entire input (*p is the NUL terminator afterwards).  The
-- fuel supplied is always sufficient (XML_parse_total), so the none
-- branches on exhausted fuel are unreachable.
def XML_parse (s : List Char) : Option XML :=
  match XML_parse_tag (2 * s.length + 2) s 0 with
  | none => none
  | some (.error _) => none
  | some (.ok (x, rest, _)) => if rest.isEmpty then some x else none

-- The failure offset of XML_parse as determined by this call.  The C code
-- computes failspot = failp - p unconditionally (line 414) from the
-- process-wide failp.  When XML_parse_tag fails, failp is the deepest
-- failure pointer of this call and p is still the start of the input, so
-- failspot is the offset modelled here.  When XML_parse_tag succeeds
-- (even if remaining input then makes XML_parse return the invalid XML),
-- no ERR_NEW ran in this call, failp still holds whatever an earlier
-- parse left there (initially the null pointer), and p has advanced past
-- the parsed element, so the subtraction yields a value that is not a
-- function of this input; that case is modelled as none.
def XML_failspot (s : List Char) : Option Nat :=
  match XML_parse_tag (2 * s.length + 2) s 0 with
  | none => none
  | some (.error fp) => some fp
  | some (.ok _) => none

/-! ### Length and totality lemmas for the parser -/

theorem XML_eatws_length : ∀ (l : List Char) (pos : Nat),
    (XML_eatws l pos).1.length ≤ l.length := by
  intro l
  induction l with
  | nil => intro pos; simp [XML_eatws]
  | cons c rest ih =>
    intro pos
    by_cases h : cIsSpace c
    · rw [XML_eatws, if_pos h]
      exact le_trans (ih (pos + 1)) (by simp)
    · rw [XML_eatws, if_neg h]

theorem XML_extract_until_length (f : Char → Bool) :
    ∀ (l : List Char) (pos : Nat) (ex r : List Char) (p : Nat),
      XML_extract_until f l pos = some (ex, r, p) →
      ex.length + r.length = l.length := by
  intro l
  induction l with
  | nil =>
    intro pos ex r p h
    rw [XML_extract_until] at h
    by_cases hf : f nulC
    · rw [if_pos hf] at h
      simp only [Option.some.injEq, Prod.mk.injEq] at h
      obtain ⟨rfl, rfl, rfl⟩ := h
      rfl
    · rw [if_neg hf] at h
      exact absurd h (by simp)
  | cons c rest ih =>
    intro pos ex r p h
    rw [XML_extract_until] at h
    by_cases hf : f c
    · rw [if_pos hf] at h
      simp only [Option.some.injEq, Prod.mk.injEq] at h
      obtain ⟨rfl, rfl, rfl⟩ := h
      simp
    · rw [if_neg hf] at h
      cases hrec : XML_extract_until f rest (pos + 1) with
      | none => simp only [hrec] at h; exact absurd h (by simp)
      | some q =>
        obtain ⟨ex1, r1, p1⟩ := q
        simp only [hrec, Option.some.injEq, Prod.mk.injEq] at h
        obtain ⟨rfl, rfl, rfl⟩ := h
        have := ih (pos + 1) ex1 _ p1 hrec
        simp only [List.length_cons]
        omega

theorem XML_extract_until_cons_false (f : Char → Bool) (c : Char) (l : List Char)
    (pos : Nat) (ex r : List Char) (p : Nat) (hf : f c = false)
    (h : XML_extract_until f (c :: l) pos = some (ex, r, p)) :
    r.length ≤ l.length := by
  rw [XML_extract_until, if_neg (by simp [hf])] at h
  cases hrec : XML_extract_until f l (pos + 1) with
  | none => simp only [hrec] at h; exact absurd h (by simp)
  | some q =>
    obtain ⟨ex1, r1, p1⟩ := q
    simp only [hrec, Option.some.injEq, Prod.mk.injEq] at h
    obtain ⟨rfl, rfl, rfl⟩ := h
    have := XML_extract_until_length f l (pos + 1) ex1 _ p1 hrec
    omega

theorem XML_matchlit_length :
    ∀ (name input : List Char) (pos : Nat) (r : List Char) (p : Nat),
      XML_matchlit name input pos = .ok (r, p) → r.length ≤ input.length := by
  intro name
  induction name with
  | nil =>
    intro input pos r p h
    rw [XML_matchlit] at h
    simp only [Except.ok.injEq, Prod.mk.injEq] at h
    obtain ⟨rfl, rfl⟩ := h
    exact le_refl _
  | cons c cs ih =>
    intro input pos r p h
    simp only [XML_matchlit] at h
    cases input with
    | nil => exact absurd h (by simp)
    | cons d rest =>
      dsimp only at h
      by_cases hd : d = c
      · rw [if_pos hd] at h
        exact le_trans (ih rest (pos + 1) r p h) (by simp)
      · rw [if_neg hd] at h
        exact absurd h (by simp)

theorem XML_parse_attrs_total :
    ∀ (fuel : Nat) (input : List Char) (pos : Nat), input.length + 1 ≤ fuel →
      ∃ res, XML_parse_attrs fuel input pos = some res ∧
        ∀ a rest p, res = .ok (a, rest, p) → rest.length ≤ input.length := by
  intro fuel
  induction fuel with
  | zero => intro input pos h; omega
  | succ fuel ih =>
    intro input pos h
    cases input with
    | nil =>
      refine ⟨.ok ([], [], pos), rfl, ?_⟩
      intro a rest p hr
      simp only [Except.ok.injEq, Prod.mk.injEq] at hr
      obtain ⟨-, rfl, -⟩ := hr
      exact le_refl _
    | cons c r0 =>
      rw [XML_parse_attrs]
      by_cases hnc : XML_isnamechar c
      swap
      · rw [if_neg hnc]
        refine ⟨.ok ([], c :: r0, pos), rfl, ?_⟩
        intro a rest p hr
        simp only [Except.ok.injEq, Prod.mk.injEq] at hr
        obtain ⟨-, rfl, -⟩ := hr
        exact le_refl _
      rw [if_pos hnc]
      cases hN : XML_extract_name (c :: r0) pos with
      | none =>
        exact ⟨.error pos, rfl, fun a rest p hr => absurd hr (by simp)⟩
      | some q =>
        obtain ⟨attrname, r1, pos1⟩ := q
        dsimp only
        have hlen1 : attrname.length + r1.length = r0.length + 1 :=
          XML_extract_until_length _ _ _ _ _ _ hN
        by_cases hne : attrname.isEmpty
        · rw [if_pos hne]
          exact ⟨.error pos1, rfl, fun a rest p hr => absurd hr (by simp)⟩
        rw [if_neg hne]
        have hnn : 1 ≤ attrname.length := by
          cases attrname with
          | nil => simp at hne
          | cons x xs => simp
        cases hE2 : XML_eatws r1 pos1 with
        | mk r2 pos2 =>
        dsimp only
        have hl2 : r2.length ≤ r1.length := by
          have := XML_eatws_length r1 pos1
          rw [hE2] at this
          exact this
        cases r2 with
        | nil =>
          exact ⟨.error (pos2 + 1), rfl, fun a rest p hr => absurd hr (by simp)⟩
        | cons c2 r3 =>
          dsimp only
          by_cases hc2 : c2 = '='
          swap
          · rw [if_neg hc2]
            exact ⟨.error (pos2 + 1), rfl, fun a rest p hr => absurd hr (by simp)⟩
          rw [if_pos hc2]
          cases hE4 : XML_eatws r3 (pos2 + 1) with
          | mk r4 pos4 =>
          dsimp only
          have hl4 : r4.length ≤ r3.length := by
            have := XML_eatws_length r3 (pos2 + 1)
            rw [hE4] at this
            exact this
          cases r4 with
          | nil =>
            exact ⟨.error (pos4 + 1), rfl, fun a rest p hr => absurd hr (by simp)⟩
          | cons c4 r5 =>
            dsimp only
            by_cases hc4 : c4 = '"'
            swap
            · rw [if_neg hc4]
              exact ⟨.error (pos4 + 1), rfl, fun a rest p hr => absurd hr (by simp)⟩
            rw [if_pos hc4]
            cases hX : XML_extract_until XML_isquote r5 (pos4 + 1) with
            | none =>
              exact ⟨.error (pos4 + 1), rfl, fun a rest p hr => absurd hr (by simp)⟩
            | some q2 =>
              obtain ⟨attrvalesc, r6, pos6⟩ := q2
              dsimp only
              have hlen6 : attrvalesc.length + r6.length = r5.length :=
                XML_extract_until_length _ _ _ _ _ _ hX
              cases r6 with
              | nil =>
                exact ⟨.error (pos6 + 1), rfl, fun a rest p hr => absurd hr (by simp)⟩
              | cons c6 r7 =>
                dsimp only
                by_cases hc6 : c6 = '"'
                swap
                · rw [if_neg hc6]
                  exact ⟨.error (pos6 + 1), rfl, fun a rest p hr => absurd hr (by simp)⟩
                rw [if_pos hc6]
                cases hE8 : XML_eatws r7 (pos6 + 1) with
                | mk r8 pos8 =>
                dsimp only
                have hl8 : r8.length ≤ r7.length := by
                  have := XML_eatws_length r7 (pos6 + 1)
                  rw [hE8] at this
                  exact this
                cases r8 with
                | nil =>
                  exact ⟨.error pos8, rfl, fun a rest p hr => absurd hr (by simp)⟩
                | cons c8 r9 =>
                  dsimp only
                  have hbound : (c8 :: r9).length + 1 ≤ fuel := by
                    simp only [List.length_cons] at hlen1 hlen6 hl2 hl4 hl8 h ⊢
                    omega
                  obtain ⟨res, hres, hcons⟩ := ih (c8 :: r9) pos8 hbound
                  rw [hres]
                  cases res with
                  | error e =>
                    exact ⟨.error e, rfl, fun a rest p hr => absurd hr (by simp)⟩
                  | ok t =>
                    obtain ⟨attrs, rr, pp⟩ := t
                    refine ⟨.ok ((attrname, XML_unescape attrvalesc) :: attrs, rr, pp),
                      rfl, ?_⟩
                    intro a rest p hr
                    simp only [Except.ok.injEq, Prod.mk.injEq] at hr
                    obtain ⟨-, rfl, -⟩ := hr
                    have := hcons attrs rr pp rfl
                    simp only [List.length_cons] at hlen1 hlen6 hl2 hl4 hl8 this ⊢
                    omega

theorem XML_parse_total :
    ∀ fuel : Nat,
      (∀ (input : List Char) (pos : Nat), 2 * input.length + 1 ≤ fuel →
        ∃ res, XML_parse_tag fuel input pos = some res ∧
          ∀ x rest p, res = .ok (x, rest, p) → rest.length + 4 ≤ input.length) ∧
      (∀ (name : List Char) (attrs : List (List Char × List Char)) (acc : List XML)
          (input : List Char) (pos : Nat), 2 * input.length + 2 ≤ fuel →
        ∃ res, XML_parse_contents fuel name attrs acc input pos = some res ∧
          ∀ x rest p, res = .ok (x, rest, p) → rest.length + 3 ≤ input.length) := by
  intro fuel
  induction fuel with
  | zero => exact ⟨fun input pos h => by omega, fun name attrs acc input pos h => by omega⟩
  | succ fuel ih =>
    obtain ⟨ihT, ihC⟩ := ih
    constructor
    · -- XML_parse_tag
      intro input pos hb
      rw [XML_parse_tag.eq_def]
      dsimp only
      cases input with
      | nil => exact ⟨.error (pos + 1), rfl, fun x rest p hr => absurd hr (by simp)⟩
      | cons c r1 =>
        dsimp only
        by_cases hc : c = '<'
        swap
        · rw [if_neg hc]
          exact ⟨.error (pos + 1), rfl, fun x rest p hr => absurd hr (by simp)⟩
        rw [if_pos hc]
        cases hE2 : XML_eatws r1 (pos + 1) with
        | mk r2 pos2 =>
        dsimp only
        have hl2 : r2.length ≤ r1.length := by
          have := XML_eatws_length r1 (pos + 1)
          rw [hE2] at this
          exact this
        cases r2 with
        | nil => exact ⟨.error pos2, rfl, fun x rest p hr => absurd hr (by simp)⟩
        | cons c2 r2' =>
          dsimp only
          cases hN : XML_extract_name (c2 :: r2') pos2 with
          | none => exact ⟨.error pos2, rfl, fun x rest p hr => absurd hr (by simp)⟩
          | some q =>
            obtain ⟨name, r3, pos3⟩ := q
            dsimp only
            have hlen3 : name.length + r3.length = r2'.length + 1 :=
              XML_extract_until_length _ _ _ _ _ _ hN
            by_cases hne : name.isEmpty
            · rw [if_pos hne]
              exact ⟨.error pos3, rfl, fun x rest p hr => absurd hr (by simp)⟩
            rw [if_neg hne]
            have hnn : 1 ≤ name.length := by
              cases name with
              | nil => simp at hne
              | cons y ys => simp
            cases hE4 : XML_eatws r3 pos3 with
            | mk r4 pos4 =>
            dsimp only
            have hl4 : r4.length ≤ r3.length := by
              have := XML_eatws_length r3 pos3
              rw [hE4] at this
              exact this
            obtain ⟨ra, hra, hcons_a⟩ :=
              XML_parse_attrs_total (r4.length + 1) r4 pos4 (by omega)
            rw [hra]
            cases ra with
            | error e => exact ⟨.error e, rfl, fun x rest p hr => absurd hr (by simp)⟩
            | ok t =>
              obtain ⟨attrs, r5, pos5⟩ := t
              dsimp only
              have hl5 : r5.length ≤ r4.length := hcons_a attrs r5 pos5 rfl
              cases r5 with
              | nil => exact ⟨.error pos5, rfl, fun x rest p hr => absurd hr (by simp)⟩
              | cons c5 r6 =>
                dsimp only
                by_cases hc5 : c5 = '/'
                · rw [if_pos hc5]
                  cases hE7 : XML_eatws r6 (pos5 + 1) with
                  | mk r7 pos7 =>
                  dsimp only
                  have hl7 : r7.length ≤ r6.length := by
                    have := XML_eatws_length r6 (pos5 + 1)
                    rw [hE7] at this
                    exact this
                  cases r7 with
                  | nil =>
                    exact ⟨.error (pos7 + 1), rfl, fun x rest p hr => absurd hr (by simp)⟩
                  | cons c7 r8 =>
                    dsimp only
                    by_cases hc7 : c7 = '>'
                    · rw [if_pos hc7]
                      refine ⟨.ok (XML.tag name attrs [], r8, pos7 + 1), rfl, ?_⟩
                      intro x rest p hr
                      simp only [Except.ok.injEq, Prod.mk.injEq] at hr
                      obtain ⟨-, rfl, -⟩ := hr
                      simp only [List.length_cons] at hl2 hl5 hl7 ⊢
                      omega
                    · rw [if_neg hc7]
                      exact ⟨.error (pos7 + 1), rfl, fun x rest p hr => absurd hr (by simp)⟩
                · rw [if_neg hc5]
                  by_cases hc5b : c5 = '>'
                  swap
                  · rw [if_neg hc5b]
                    exact ⟨.error pos5, rfl, fun x rest p hr => absurd hr (by simp)⟩
                  rw [if_pos hc5b]
                  cases r6 with
                  | nil =>
                    exact ⟨.error (pos5 + 1), rfl, fun x rest p hr => absurd hr (by simp)⟩
                  | cons c6 r7 =>
                    dsimp only
                    obtain ⟨rc, hrc, hcons_c⟩ :=
                      ihC name attrs [] (c6 :: r7) (pos5 + 1) (by
                        simp only [List.length_cons] at hb hl2 hl5 ⊢
                        omega)
                    rw [hrc]
                    refine ⟨rc, rfl, ?_⟩
                    intro x rest p hr
                    subst hr
                    have := hcons_c x rest p rfl
                    simp only [List.length_cons] at hl2 hl5 this ⊢
                    omega
    · -- XML_parse_contents
      intro name attrs acc input pos hb
      rw [XML_parse_contents.eq_def]
      dsimp only
      cases input with
      | nil => exact ⟨.error pos, rfl, fun x rest p hr => absurd hr (by simp)⟩
      | cons c r1 =>
        dsimp only
        by_cases hc : c = '<'
        swap
        · rw [if_neg hc]
          cases hX : XML_extract_until XML_islt (c :: r1) pos with
          | none => exact ⟨.error pos, rfl, fun x rest p hr => absurd hr (by simp)⟩
          | some q =>
            obtain ⟨textesc, rr, pos1⟩ := q
            dsimp only
            have hlr : rr.length ≤ r1.length :=
              XML_extract_until_cons_false XML_islt c r1 pos textesc rr pos1
                (by simp [XML_islt, hc]) hX
            obtain ⟨rc, hrc, hcons_c⟩ :=
              ihC name attrs (acc ++ [XML.text (XML_unescape textesc)]) rr pos1 (by
                simp only [List.length_cons] at hb ⊢
                omega)
            rw [hrc]
            refine ⟨rc, rfl, ?_⟩
            intro x rest p hr
            subst hr
            have := hcons_c x rest p rfl
            simp only [List.length_cons] at hb ⊢
            omega
        rw [if_pos hc]
        cases hE2 : XML_eatws r1 (pos + 1) with
        | mk r2 pos2 =>
        dsimp only
        have hl2 : r2.length ≤ r1.length := by
          have := XML_eatws_length r1 (pos + 1)
          rw [hE2] at this
          exact this
        cases r2 with
        | nil =>
          dsimp only
          obtain ⟨rt, hrt, hcons_t⟩ := ihT (c :: r1) pos (by
            simp only [List.length_cons] at hb ⊢
            omega)
          rw [hrt]
          cases rt with
          | error e => exact ⟨.error e, rfl, fun x rest p hr => absurd hr (by simp)⟩
          | ok t =>
            obtain ⟨child, rc0, posc⟩ := t
            dsimp only
            have hlc : rc0.length + 4 ≤ (c :: r1).length := hcons_t child rc0 posc rfl
            obtain ⟨rc, hrc, hcons_c⟩ :=
              ihC name attrs (acc ++ [child]) rc0 posc (by
                simp only [List.length_cons] at hb hlc ⊢
                omega)
            rw [hrc]
            refine ⟨rc, rfl, ?_⟩
            intro x rest p hr
            subst hr
            have := hcons_c x rest p rfl
            simp only [List.length_cons] at hb hlc this ⊢
            omega
        | cons c2 r3 =>
          dsimp only
          by_cases hc2 : c2 = '/'
          swap
          · rw [if_neg hc2]
            obtain ⟨rt, hrt, hcons_t⟩ := ihT (c :: r1) pos (by
              simp only [List.length_cons] at hb ⊢
              omega)
            rw [hrt]
            cases rt with
            | error e => exact ⟨.error e, rfl, fun x rest p hr => absurd hr (by simp)⟩
            | ok t =>
              obtain ⟨child, rc0, posc⟩ := t
              dsimp only
              have hlc : rc0.length + 4 ≤ (c :: r1).length := hcons_t child rc0 posc rfl
              obtain ⟨rc, hrc, hcons_c⟩ :=
                ihC name attrs (acc ++ [child]) rc0 posc (by
                  simp only [List.length_cons] at hb hlc ⊢
                  omega)
              rw [hrc]
              refine ⟨rc, rfl, ?_⟩
              intro x rest p hr
              subst hr
              have := hcons_c x rest p rfl
              simp only [List.length_cons] at hb hlc this ⊢
              omega
          rw [if_pos hc2]
          cases hE4 : XML_eatws r3 (pos2 + 1) with
          | mk r4 pos4 =>
          dsimp only
          have hl4 : r4.length ≤ r3.length := by
            have := XML_eatws_length r3 (pos2 + 1)
            rw [hE4] at this
            exact this
          cases hM : XML_matchlit name r4 pos4 with
          | error e => exact ⟨.error e, rfl, fun x rest p hr => absurd hr (by simp)⟩
          | ok t =>
            obtain ⟨r5, pos5⟩ := t
            dsimp only
            have hl5 : r5.length ≤ r4.length := XML_matchlit_length name r4 pos4 r5 pos5 hM
            cases hE6 : XML_eatws r5 pos5 with
            | mk r6 pos6 =>
            dsimp only
            have hl6 : r6.length ≤ r5.length := by
              have := XML_eatws_length r5 pos5
              rw [hE6] at this
              exact this
            cases r6 with
            | nil =>
              exact ⟨.error (pos6 + 1), rfl, fun x rest p hr => absurd hr (by simp)⟩
            | cons c6 r7 =>
              dsimp only
              by_cases hc6 : c6 = '>'
              · rw [if_pos hc6]
                refine ⟨.ok (XML.tag name attrs acc, r7, pos6 + 1), rfl, ?_⟩
                intro x rest p hr
                simp only [Except.ok.injEq, Prod.mk.injEq] at hr
                obtain ⟨-, rfl, -⟩ := hr
                simp only [List.length_cons] at hl2 hl6 ⊢
                omega
              · rw [if_neg hc6]
                exact ⟨.error (pos6 + 1), rfl, fun x rest p hr => absurd hr (by simp)⟩

/-! ### Claims about the top-level parse and its failure offset -/

/-- Claim C7: the top-level parse returns a valid node exactly when one
element parses from the start and the whole input is consumed by it; if
any byte remains, including trailing text after a structurally valid top
element, the result is the invalid value, never a tree. -/
theorem C7_parse_iff_full_consumption :
    ∀ s : List Char,
      (∀ x : XML, XML_parse s = some x ↔
        ∃ pos, XML_parse_tag (2 * s.length + 2) s 0 = some (.ok (x, [], pos))) ∧
      (∀ (x : XML) (rest : List Char) (pos : Nat),
        XML_parse_tag (2 * s.length + 2) s 0 = some (.ok (x, rest, pos)) →
        rest ≠ [] → XML_parse s = none) := by
  intro s
  constructor
  · intro x
    constructor
    · intro hp
      rw [XML_parse] at hp
      cases hres : XML_parse_tag (2 * s.length + 2) s 0 with
      | none => rw [hres] at hp; exact absurd hp (by simp)
      | some res =>
        rw [hres] at hp
        cases res with
        | error e => exact absurd hp (by simp)
        | ok t =>
          obtain ⟨y, rest, pos⟩ := t
          dsimp only at hp
          by_cases hrest : rest.isEmpty
          · rw [if_pos hrest] at hp
            have hx := Option.some.inj hp
            have hnil : rest = [] := by simpa using hrest
            subst hx
            subst hnil
            exact ⟨pos, rfl⟩
          · rw [if_neg hrest] at hp
            exact absurd hp (by simp)
    · intro hex
      obtain ⟨pos, hok⟩ := hex
      rw [XML_parse, hok]
      rfl
  · intro x rest pos hok hne
    rw [XML_parse, hok]
    dsimp only
    rw [if_neg (by simpa using hne)]

/-- Witness for Claim C7: trailing text after a valid top element makes the
parse invalid. -/
theorem C7_parse_iff_full_consumption_witness :
    XML_parse "<a/>x".toList = none :=
  (C7_parse_iff_full_consumption "<a/>x".toList).2 (XML.tag ['a'] [] []) ['x'] 4
    rfl (by simp)

/-- Counterexample for Claim C6 as stated: on the input with trailing text
after a structurally valid top element the parse fails, but this call
records no failure offset at all: XML_parse_tag ran no ERR_NEW, so the C
code computes failspot from the stale process-wide failp of some earlier
call minus the advanced cursor, which is not an offset of this failure
(and not even a function of this input); the model returns none. -/
theorem C6_counterexample_trailing_offset :
    XML_parse "<a/>x".toList = none ∧ XML_failspot "<a/>x".toList = none :=
  ⟨rfl, by decide⟩

/-- Claim C6 amended: when the element parse itself fails, XML_parse is
invalid and the failure offset is the deepest failure point recorded by
failp; concretely, parsing the string with a mismatched closing tag fails
with offset 9, which lies inside the closing tag bytes 6 to 9; but when
the element parse succeeds and only trailing input remains, the parse is
invalid with no offset recorded by this call. -/
theorem C6_failure_offset_amended :
    (∀ (s : List Char) (e : Nat),
      XML_parse_tag (2 * s.length + 2) s 0 = some (.error e) →
      XML_parse s = none ∧ XML_failspot s = some e) ∧
    XML_parse "<a><b></a>".toList = none ∧
    XML_failspot "<a><b></a>".toList = some 9 ∧
    (("<a><b></a>".toList).drop 6).take 4 = "</a>".toList ∧
    (∀ (s : List Char) (x : XML) (rest : List Char) (pos : Nat),
      XML_parse_tag (2 * s.length + 2) s 0 = some (.ok (x, rest, pos)) →
      rest ≠ [] → XML_parse s = none ∧ XML_failspot s = none) := by
  refine ⟨?_, rfl, by decide, by decide, ?_⟩
  · intro s e h
    rw [XML_parse, XML_failspot, h]
    exact ⟨rfl, rfl⟩
  · intro s x rest pos h hne
    rw [XML_parse, XML_failspot, h]
    dsimp only
    rw [if_neg (by simpa using hne)]
    exact ⟨rfl, rfl⟩

/-- Witness for the amended Claim C6: a mismatched closing tag records its
failure offset, and the trailing-text case records none. -/
theorem C6_failure_offset_amended_witness :
    (XML_parse "<a></b>".toList = none ∧ XML_failspot "<a></b>".toList = some 6) ∧
    (XML_parse "<b/>y".toList = none ∧ XML_failspot "<b/>y".toList = none) :=
  ⟨C6_failure_offset_amended.1 "<a></b>".toList 6 rfl,
   C6_failure_offset_amended.2.2.2.2 "<b/>y".toList (XML.tag ['b'] [] []) ['y'] 4
     rfl (by simp)⟩

/-! ### Helper lemmas for the serialize-then-parse round trip -/

theorem XML_isnamechar_not_space (c : Char) (h : XML_isnamechar c = true) :
    cIsSpace c = false := by
  simp only [XML_isnamechar, Bool.and_eq_true, bne_iff_ne, Bool.not_eq_true'] at h
  exact h.2

theorem XML_isnamechar_ne (c : Char) (h : XML_isnamechar c = true) :
    c ≠ '>' ∧ c ≠ '/' ∧ c ≠ '"' ∧ c ≠ '=' := by
  simp only [XML_isnamechar, Bool.and_eq_true, bne_iff_ne, Bool.not_eq_true'] at h
  exact ⟨h.1.1.1.1.2, h.1.1.1.2, h.1.1.2, h.1.2⟩

theorem XML_isntnamechar_of_namechar (c : Char) (h : XML_isnamechar c = true) :
    XML_isntnamechar c = false := by
  simp [XML_isntnamechar, h]

theorem goodNameB_spec (s : List Char) (h : goodNameB s = true) :
    s ≠ [] ∧ ∀ c ∈ s, XML_isnamechar c = true := by
  simp only [goodNameB, Bool.and_eq_true, Bool.not_eq_true', List.isEmpty_eq_false,
    List.all_eq_true] at h
  exact ⟨h.1, h.2⟩

theorem XML_eatws_no_ws (c : Char) (l : List Char) (pos : Nat)
    (h : cIsSpace c = false) : XML_eatws (c :: l) pos = (c :: l, pos) := by
  rw [XML_eatws, if_neg (by simp [h])]

theorem XML_extract_until_prefix (f : Char → Bool) :
    ∀ (a : List Char) (d : Char) (b : List Char) (pos : Nat),
      (∀ c ∈ a, f c = false) → f d = true →
      XML_extract_until f (a ++ d :: b) pos = some (a, d :: b, pos + a.length) := by
  intro a
  induction a with
  | nil =>
    intro d b pos ha hd
    rw [List.nil_append, XML_extract_until, if_pos hd]
    simp
  | cons c a2 ih =>
    intro d b pos ha hd
    have hc : f c = false := ha c (List.mem_cons_self c a2)
    rw [List.cons_append, XML_extract_until, if_neg (by simp [hc])]
    rw [ih d b (pos + 1) (fun x hx => ha x (List.mem_cons_of_mem c hx)) hd]
    simp only [List.length_cons]
    have harith : pos + 1 + a2.length = pos + (a2.length + 1) := by omega
    rw [harith]

theorem XML_matchlit_self :
    ∀ (a b : List Char) (pos : Nat),
      XML_matchlit a (a ++ b) pos = .ok (b, pos + a.length) := by
  intro a
  induction a with
  | nil => intro b pos; rw [List.nil_append, XML_matchlit]; simp
  | cons c a2 ih =>
    intro b pos
    rw [List.cons_append]
    simp only [XML_matchlit, if_true]
    rw [ih b (pos + 1)]
    simp only [List.length_cons]
    have harith : pos + 1 + a2.length = pos + (a2.length + 1) := by omega
    rw [harith]

theorem XML_escape_islt (s : List Char) : ∀ c ∈ XML_escape s, XML_islt c = false := by
  intro c hc
  have := (XML_escape_chars s c hc).1
  simp [XML_islt, this]

theorem XML_escape_isquote (s : List Char) :
    ∀ c ∈ XML_escape s, XML_isquote c = false := by
  intro c hc
  have := (XML_escape_chars s c hc).2
  simp [XML_isquote, this]

theorem XML_good_namesB_list_iff (l : List XML) :
    XML_good_namesB_list l = true ↔ ∀ x ∈ l, XML_good_namesB x = true := by
  induction l with
  | nil => simp [XML_good_namesB_list]
  | cons x xs ih =>
    rw [XML_good_namesB_list, Bool.and_eq_true, ih]
    constructor
    · rintro ⟨h1, h2⟩ y hy
      rcases List.mem_cons.mp hy with rfl | hy2
      · exact h1
      · exact h2 y hy2
    · intro h
      exact ⟨h x (List.mem_cons_self x xs), fun y hy => h y (List.mem_cons_of_mem x hy)⟩

theorem XML_stableB_list_iff (l : List XML) :
    XML_stableB_list l = true ↔ ∀ x ∈ l, XML_stableB x = true := by
  induction l with
  | nil => simp [XML_stableB_list]
  | cons x xs ih =>
    rw [XML_stableB_list, Bool.and_eq_true, ih]
    constructor
    · rintro ⟨h1, h2⟩ y hy
      rcases List.mem_cons.mp hy with rfl | hy2
      · exact h1
      · exact h2 y hy2
    · intro h
      exact ⟨h x (List.mem_cons_self x xs), fun y hy => h y (List.mem_cons_of_mem x hy)⟩

-- The maximal run of text payloads at the front of a child list, and what
-- remains after it: the parser reads that run as one text node.
def XML_take_texts : List XML → List Char
  | [] => []
  | XML.text s :: rest => s ++ XML_take_texts rest
  | XML.tag _ _ _ :: _ => []

def XML_drop_texts : List XML → List XML
  | [] => []
  | XML.text _ :: rest => XML_drop_texts rest
  | XML.tag n a c :: rest => XML.tag n a c :: rest

theorem XML_ser_split (l : List XML) :
    XML_as_text_list l
      = XML_escape (XML_take_texts l) ++ XML_as_text_list (XML_drop_texts l) := by
  induction l with
  | nil => rfl
  | cons x xs ih =>
    cases x with
    | text s =>
      rw [XML_as_text_list, XML_take_texts, XML_drop_texts, XML_escape_append, ih,
        XML_as_text, List.append_assoc]
    | tag n a c =>
      rw [XML_take_texts, XML_drop_texts]
      simp [XML_escape]

theorem XML_drop_texts_shape (l : List XML) :
    XML_drop_texts l = [] ∨
      ∃ n a c rest, XML_drop_texts l = XML.tag n a c :: rest := by
  induction l with
  | nil => exact Or.inl rfl
  | cons x xs ih =>
    cases x with
    | text s => rw [XML_drop_texts]; exact ih
    | tag n a c => exact Or.inr ⟨n, a, c, xs, rfl⟩

theorem XML_drop_texts_subset (l : List XML) : ∀ x ∈ XML_drop_texts l, x ∈ l := by
  induction l with
  | nil => simp [XML_drop_texts]
  | cons y ys ih =>
    cases y with
    | text s =>
      rw [XML_drop_texts]
      intro x hx
      exact List.mem_cons_of_mem _ (ih x hx)
    | tag n a c =>
      rw [XML_drop_texts]
      intro x hx
      exact hx

theorem XML_size_list_drop_le (l : List XML) :
    XML_size_list (XML_drop_texts l) ≤ XML_size_list l := by
  induction l with
  | nil => exact le_refl _
  | cons y ys ih =>
    cases y with
    | text s =>
      rw [XML_drop_texts, XML_size_list]
      exact le_trans ih (by omega)
    | tag n a c => rw [XML_drop_texts]

theorem XML_parse_attrs_serialized :
    ∀ (attrs : List (List Char × List Char)) (d : Char) (tail : List Char) (pos : Nat),
      (∀ a ∈ attrs, goodNameB a.1 = true) →
      cIsSpace d = false → XML_isnamechar d = false →
      ∃ S posS pos2,
        XML_eatws (XML_attrs_text attrs ++ d :: tail) pos = (S, posS) ∧ S ≠ [] ∧
        ∀ fuel, S.length + 1 ≤ fuel →
          XML_parse_attrs fuel S posS = some (.ok (attrs, d :: tail, pos2)) := by
  intro attrs
  induction attrs with
  | nil =>
    intro d tail pos hgood hdns hdnn
    refine ⟨d :: tail, pos, pos, ?_, by simp, ?_⟩
    · rw [XML_attrs_text, List.nil_append]
      exact XML_eatws_no_ws d tail pos hdns
    · intro fuel hf
      cases fuel with
      | zero => simp at hf
      | succ f =>
        rw [XML_parse_attrs, if_neg (by simp [hdnn])]
  | cons a rest ih =>
    intro d tail pos hgood hdns hdnn
    obtain ⟨an, av⟩ := a
    have han : goodNameB an = true := hgood (an, av) (List.mem_cons_self _ _)
    have hrest : ∀ b ∈ rest, goodNameB b.1 = true :=
      fun b hb => hgood b (List.mem_cons_of_mem _ hb)
    obtain ⟨hanne, hanchars⟩ := goodNameB_spec an han
    cases han2 : an with
    | nil => exact absurd han2 hanne
    | cons a0 an2 =>
    subst han2
    have ha0 : XML_isnamechar a0 = true := hanchars a0 (List.mem_cons_self _ _)
    rw [XML_attrs_text]
    have hstream :
        (' ' :: ((a0 :: an2) ++ '=' :: '"' ::
            (XML_escape av ++ '"' :: XML_attrs_text rest))) ++ d :: tail
          = ' ' :: a0 :: (an2 ++ '=' :: '"' ::
            (XML_escape av ++ '"' :: (XML_attrs_text rest ++ d :: tail))) := by
      simp [List.append_assoc]
    rw [hstream]
    rw [show XML_eatws (' ' :: a0 :: (an2 ++ '=' :: '"' ::
          (XML_escape av ++ '"' :: (XML_attrs_text rest ++ d :: tail)))) pos
        = XML_eatws (a0 :: (an2 ++ '=' :: '"' ::
          (XML_escape av ++ '"' :: (XML_attrs_text rest ++ d :: tail)))) (pos + 1) from by
      rw [XML_eatws, if_pos (by decide)]]
    rw [XML_eatws_no_ws a0 _ (pos + 1) (XML_isnamechar_not_space a0 ha0)]
    obtain ⟨S2, posS2, pos2r, hE2, hS2ne, hP2⟩ :=
      ih d tail ((pos + 1) + (a0 :: an2).length + 1 + 1 + (XML_escape av).length + 1)
        hrest hdns hdnn
    refine ⟨_, _, pos2r, rfl, by simp, ?_⟩
    intro fuel hf
    cases fuel with
    | zero => simp at hf
    | succ f =>
      rw [XML_parse_attrs, if_pos ha0]
      rw [show XML_extract_name (a0 :: (an2 ++ '=' :: '"' ::
            (XML_escape av ++ '"' :: (XML_attrs_text rest ++ d :: tail)))) (pos + 1)
          = some ((a0 :: an2), '=' :: '"' ::
            (XML_escape av ++ '"' :: (XML_attrs_text rest ++ d :: tail)),
            (pos + 1) + (a0 :: an2).length) from
        XML_extract_until_prefix XML_isntnamechar (a0 :: an2) '=' _ (pos + 1)
          (fun c hc => XML_isntnamechar_of_namechar c (hanchars c hc)) (by decide)]
      dsimp only
      rw [if_neg (by simp)]
      rw [XML_eatws_no_ws '=' _ _ (by decide)]
      dsimp only
      rw [if_pos rfl]
      rw [XML_eatws_no_ws '"' _ _ (by decide)]
      dsimp only
      rw [if_pos rfl]
      rw [show XML_extract_until XML_isquote
            (XML_escape av ++ '"' :: (XML_attrs_text rest ++ d :: tail))
            ((pos + 1) + (a0 :: an2).length + 1 + 1)
          = some (XML_escape av, '"' :: (XML_attrs_text rest ++ d :: tail),
            (pos + 1) + (a0 :: an2).length + 1 + 1 + (XML_escape av).length) from
        XML_extract_until_prefix XML_isquote (XML_escape av) '"' _ _
          (XML_escape_isquote av) (by decide)]
      dsimp only
      rw [if_pos rfl]
      rw [hE2]
      dsimp only
      cases hS2c : S2 with
      | nil => exact absurd hS2c hS2ne
      | cons s0 S2' =>
      subst hS2c
      dsimp only
      have hS2len : (s0 :: S2').length ≤ (XML_attrs_text rest ++ d :: tail).length := by
        have := XML_eatws_length (XML_attrs_text rest ++ d :: tail)
          ((pos + 1) + (a0 :: an2).length + 1 + 1 + (XML_escape av).length + 1)
        rw [hE2] at this
        exact this
      rw [hP2 f (by
        simp only [List.length_cons, List.length_append] at hf hS2len ⊢
        omega)]
      dsimp only
      rw [XML_unescape_escape av]

theorem XML_extract_name_before_attrs (nm : List Char)
    (attrs : List (List Char × List Char)) (d : Char) (tailR : List Char) (pos : Nat)
    (hnm : ∀ c ∈ nm, XML_isnamechar c = true) (hd : XML_isnamechar d = false) :
    XML_extract_name (nm ++ (XML_attrs_text attrs ++ d :: tailR)) pos
      = some (nm, XML_attrs_text attrs ++ d :: tailR, pos + nm.length) := by
  cases attrs with
  | nil =>
    rw [XML_attrs_text, List.nil_append]
    exact XML_extract_until_prefix _ nm d tailR pos
      (fun c hc => XML_isntnamechar_of_namechar c (hnm c hc))
      (by simp [XML_isntnamechar, hd])
  | cons a rest =>
    rw [XML_attrs_text]
    exact XML_extract_until_prefix _ nm ' '
      ((a.1 ++ '=' :: '"' :: (XML_escape a.2 ++ '"' :: XML_attrs_text rest)) ++ d :: tailR)
      pos (fun c hc => XML_isntnamechar_of_namechar c (hnm c hc)) (by decide)

-- One step of the contents loop on a child element: at an opening bracket
-- whose next byte is a name character (hence not a slash), the loop
-- restores the cursor and dispatches a child parse.
theorem XML_parse_contents_child_step (f : Nat) (name : List Char)
    (attrs : List (List Char × List Char)) (acc : List XML) (b0 : Char)
    (B : List Char) (pos : Nat) (hb0 : XML_isnamechar b0 = true) :
    XML_parse_contents (f + 1) name attrs acc ('<' :: b0 :: B) pos
      = match XML_parse_tag f ('<' :: b0 :: B) pos with
        | none => none
        | some (.error e) => some (.error e)
        | some (.ok (child, rc, posc)) =>
          XML_parse_contents f name attrs (acc ++ [child]) rc posc := by
  rw [XML_parse_contents.eq_def]
  dsimp only
  rw [if_pos rfl]
  rw [XML_eatws_no_ws b0 B (pos + 1) (XML_isnamechar_not_space b0 hb0)]
  dsimp only
  rw [if_neg (XML_isnamechar_ne b0 hb0).2.1]

-- One step of the contents loop on a text run: a non-bracket head starts a
-- run that extends to the next opening bracket and is unescaped.
theorem XML_parse_contents_text_step (f : Nat) (name : List Char)
    (attrs : List (List Char × List Char)) (acc : List XML) (e0 : Char)
    (E Z : List Char) (pos : Nat) (hE : ∀ c ∈ e0 :: E, XML_islt c = false) :
    XML_parse_contents (f + 1) name attrs acc (e0 :: (E ++ '<' :: Z)) pos
      = XML_parse_contents f name attrs
          (acc ++ [XML.text (XML_unescape (e0 :: E))]) ('<' :: Z)
          (pos + (e0 :: E).length) := by
  have he0 : e0 ≠ '<' := by
    have := hE e0 (List.mem_cons_self _ _)
    simp [XML_islt] at this
    exact this
  rw [XML_parse_contents.eq_def]
  dsimp only
  rw [if_neg he0]
  rw [show XML_extract_until XML_islt (e0 :: (E ++ '<' :: Z)) pos
      = some (e0 :: E, '<' :: Z, pos + (e0 :: E).length) from
    XML_extract_until_prefix XML_islt (e0 :: E) '<' Z pos hE (by decide)]

-- The contents loop at the serialized closing tag of the current element:
-- it matches the name and finishes the element.
theorem XML_parse_contents_close_step (f : Nat) (m0 : Char) (m' : List Char)
    (attrs : List (List Char × List Char)) (acc : List XML) (rest : List Char)
    (pos : Nat) (hm : ∀ c ∈ m0 :: m', XML_isnamechar c = true) :
    XML_parse_contents (f + 1) (m0 :: m') attrs acc
        ('<' :: '/' :: ((m0 :: m') ++ '>' :: rest)) pos
      = some (.ok (XML.tag (m0 :: m') attrs acc, rest,
          pos + 1 + 1 + (m0 :: m').length + 1)) := by
  rw [XML_parse_contents.eq_def]
  dsimp only
  rw [if_pos rfl]
  rw [XML_eatws_no_ws '/' _ (pos + 1) (by decide)]
  dsimp only
  rw [if_pos rfl]
  rw [show XML_eatws ((m0 :: m') ++ '>' :: rest) (pos + 1 + 1)
      = ((m0 :: m') ++ '>' :: rest, pos + 1 + 1) from
    XML_eatws_no_ws m0 _ (pos + 1 + 1)
      (XML_isnamechar_not_space m0 (hm m0 (List.mem_cons_self _ _)))]
  dsimp only
  rw [XML_matchlit_self (m0 :: m') ('>' :: rest) (pos + 1 + 1)]
  dsimp only
  rw [XML_eatws_no_ws '>' rest _ (by decide)]
  dsimp only
  rw [if_pos rfl]

theorem XML_round_trip_core :
    ∀ k : Nat,
      (∀ (n : List Char) (attrs : List (List Char × List Char)) (cs : List XML),
        XML_size (XML.tag n attrs cs) ≤ k →
        XML_good_namesB (XML.tag n attrs cs) = true →
        XML_stableB (XML.tag n attrs cs) = true →
        ∀ (rest : List Char) (pos : Nat) (fuel : Nat),
          2 * (XML_as_text (XML.tag n attrs cs) ++ rest).length + 1 ≤ fuel →
          ∃ t2 pos2,
            XML_parse_tag fuel (XML_as_text (XML.tag n attrs cs) ++ rest) pos
              = some (.ok (t2, rest, pos2)) ∧
            XML_as_text t2 = XML_as_text (XML.tag n attrs cs)) ∧
      (∀ cs : List XML,
        XML_size_list cs ≤ k →
        XML_good_namesB_list cs = true → XML_stableB_list cs = true →
        ∀ (name : List Char) (attrs : List (List Char × List Char)) (acc : List XML)
          (rest : List Char) (pos : Nat) (fuel : Nat),
          goodNameB name = true →
          2 * (XML_as_text_list cs ++ '<' :: '/' :: (name ++ '>' :: rest)).length + 2
            ≤ fuel →
          ∃ cs2 pos2,
            XML_parse_contents fuel name attrs acc
              (XML_as_text_list cs ++ '<' :: '/' :: (name ++ '>' :: rest)) pos
              = some (.ok (XML.tag name attrs (acc ++ cs2), rest, pos2)) ∧
            XML_as_text_list cs2 = XML_as_text_list cs) := by
  intro k
  induction k using Nat.strong_induction_on with
  | _ k IH =>
  constructor
  · -- one serialized element followed by arbitrary rest
    intro n attrs cs hsz hgood hstab rest pos fuel hfuel
    simp only [XML_good_namesB, Bool.and_eq_true] at hgood
    obtain ⟨⟨hn, hattrsall⟩, hcsgood⟩ := hgood
    have hattrs : ∀ a ∈ attrs, goodNameB a.1 = true := by
      simpa [List.all_eq_true] using hattrsall
    simp only [XML_stableB, Bool.and_eq_true] at hstab
    obtain ⟨hcol, hcsstab⟩ := hstab
    obtain ⟨hnne, hnchars⟩ := goodNameB_spec n hn
    cases hn0 : n with
    | nil => exact absurd hn0 hnne
    | cons n0 n' =>
    subst hn0
    have hn0c : XML_isnamechar n0 = true := hnchars n0 (List.mem_cons_self _ _)
    rw [XML_size] at hsz
    cases cs with
    | nil =>
      have hstr : XML_as_text (XML.tag (n0 :: n') attrs []) ++ rest
          = '<' :: n0 :: (n' ++ (XML_attrs_text attrs ++ '/' :: '>' :: rest)) := by
        rw [XML_as_text]
        simp [List.append_assoc]
      rw [hstr] at hfuel ⊢
      cases fuel with
      | zero => omega
      | succ f =>
      rw [XML_parse_tag.eq_def]
      dsimp only
      rw [if_pos rfl]
      rw [XML_eatws_no_ws n0 _ (pos + 1) (XML_isnamechar_not_space n0 hn0c)]
      dsimp only
      rw [show XML_extract_name
            (n0 :: (n' ++ (XML_attrs_text attrs ++ '/' :: '>' :: rest))) (pos + 1)
          = some (n0 :: n', XML_attrs_text attrs ++ '/' :: '>' :: rest,
            (pos + 1) + (n0 :: n').length) from
        XML_extract_name_before_attrs (n0 :: n') attrs '/' ('>' :: rest) (pos + 1)
          hnchars (by decide)]
      dsimp only
      rw [if_neg (by simp)]
      obtain ⟨S, posS, pos2A, hE2, hSne, hP2⟩ :=
        XML_parse_attrs_serialized attrs '/' ('>' :: rest)
          ((pos + 1) + (n0 :: n').length) hattrs (by decide) (by decide)
      rw [hE2]
      dsimp only
      rw [hP2 (S.length + 1) (le_refl _)]
      dsimp only
      rw [if_pos rfl]
      rw [XML_eatws_no_ws '>' rest (pos2A + 1) (by decide)]
      dsimp only
      rw [if_pos rfl]
      exact ⟨XML.tag (n0 :: n') attrs [], _, rfl, rfl⟩
    | cons c0 cs' =>
      have hstr : XML_as_text (XML.tag (n0 :: n') attrs (c0 :: cs')) ++ rest
          = '<' :: n0 :: (n' ++ (XML_attrs_text attrs ++ '>' ::
            (XML_as_text_list (c0 :: cs') ++ '<' :: '/' :: n0 :: (n' ++ '>' :: rest)))) := by
        rw [XML_as_text]
        simp [List.append_assoc]
      rw [hstr] at hfuel ⊢
      cases fuel with
      | zero => omega
      | succ f =>
      rw [XML_parse_tag.eq_def]
      dsimp only
      rw [if_pos rfl]
      rw [XML_eatws_no_ws n0 _ (pos + 1) (XML_isnamechar_not_space n0 hn0c)]
      dsimp only
      rw [show XML_extract_name
            (n0 :: (n' ++ (XML_attrs_text attrs ++ '>' ::
              (XML_as_text_list (c0 :: cs') ++ '<' :: '/' :: n0 :: (n' ++ '>' :: rest)))))
            (pos + 1)
          = some (n0 :: n', XML_attrs_text attrs ++ '>' ::
              (XML_as_text_list (c0 :: cs') ++ '<' :: '/' :: n0 :: (n' ++ '>' :: rest)),
            (pos + 1) + (n0 :: n').length) from
        XML_extract_name_before_attrs (n0 :: n') attrs '>'
          (XML_as_text_list (c0 :: cs') ++ '<' :: '/' :: n0 :: (n' ++ '>' :: rest))
          (pos + 1) hnchars (by decide)]
      dsimp only
      rw [if_neg (by simp)]
      obtain ⟨S, posS, pos2A, hE2, hSne, hP2⟩ :=
        XML_parse_attrs_serialized attrs '>'
          (XML_as_text_list (c0 :: cs') ++ '<' :: '/' :: n0 :: (n' ++ '>' :: rest))
          ((pos + 1) + (n0 :: n').length) hattrs (by decide) (by decide)
      rw [hE2]
      dsimp only
      rw [hP2 (S.length + 1) (le_refl _)]
      dsimp only
      rw [if_neg (by decide), if_pos rfl]
      obtain ⟨c6, r7, hr6⟩ : ∃ c6 r7,
          XML_as_text_list (c0 :: cs') ++ '<' :: '/' :: n0 :: (n' ++ '>' :: rest)
            = c6 :: r7 := by
        cases h : XML_as_text_list (c0 :: cs') with
        | nil => exact ⟨'<', _, by rw [List.nil_append]⟩
        | cons e es => exact ⟨e, _, List.cons_append e es _⟩
      rw [hr6]
      dsimp only
      rw [← hr6]
      have hklt : k - 1 < k := by omega
      obtain ⟨cs2, pos2c, hPC, hser⟩ :=
        (IH (k - 1) hklt).2 (c0 :: cs') (by omega) hcsgood hcsstab (n0 :: n') attrs []
          rest (pos2A + 1) f hn (by
            simp only [List.length_cons, List.length_append] at hfuel ⊢
            omega)
      rw [show XML_parse_contents f (n0 :: n') attrs []
            (XML_as_text_list (c0 :: cs') ++ '<' :: '/' :: n0 :: (n' ++ '>' :: rest))
            (pos2A + 1)
          = some (.ok (XML.tag (n0 :: n') attrs ([] ++ cs2), rest, pos2c)) from hPC]
      have hserne : XML_as_text_list (c0 :: cs') ≠ [] := by
        simp only [List.isEmpty_cons, Bool.false_or, Bool.not_eq_true',
          List.isEmpty_eq_false] at hcol
        exact hcol
      have hcs2ne : cs2 ≠ [] := by
        intro hnil
        rw [hnil] at hser
        exact hserne (by rw [← hser]; rfl)
      refine ⟨XML.tag (n0 :: n') attrs cs2, pos2c, by simp, ?_⟩
      rw [XML_as_text, XML_as_text]
      rw [if_neg (by simpa using hcs2ne), if_neg (by simp)]
      rw [hser]
  · -- the contents of an element, followed by its closing tag
    intro cs hsz hgood hstab name attrs acc rest pos fuel hname hfuel
    obtain ⟨hnamene, hnamechars⟩ := goodNameB_spec name hname
    cases hm0 : name with
    | nil => exact absurd hm0 hnamene
    | cons m0 m' =>
    subst hm0
    cases cs with
    | nil =>
      rw [show XML_as_text_list ([] : List XML) = ([] : List Char) from rfl,
        List.nil_append] at hfuel ⊢
      cases fuel with
      | zero => omega
      | succ f =>
      rw [XML_parse_contents_close_step f m0 m' attrs acc rest pos hnamechars]
      exact ⟨[], pos + 1 + 1 + (m0 :: m').length + 1, by simp, rfl⟩
    | cons x cs' =>
      simp only [XML_good_namesB_list, Bool.and_eq_true] at hgood
      obtain ⟨hxgood, hcs'good⟩ := hgood
      simp only [XML_stableB_list, Bool.and_eq_true] at hstab
      obtain ⟨hxstab, hcs'stab⟩ := hstab
      rw [XML_size_list] at hsz
      cases x with
      | tag n2 a2 c2 =>
        have hn2good : goodNameB n2 = true := by
          have := hxgood
          simp only [XML_good_namesB, Bool.and_eq_true] at this
          exact this.1.1
        obtain ⟨hn2ne, hn2chars⟩ := goodNameB_spec n2 hn2good
        cases hn2s : n2 with
        | nil => exact absurd hn2s hn2ne
        | cons b0 b' =>
        subst hn2s
        have hb0c : XML_isnamechar b0 = true := hn2chars b0 (List.mem_cons_self _ _)
        have h1 : XML_as_text_list (XML.tag (b0 :: b') a2 c2 :: cs')
              ++ '<' :: '/' :: ((m0 :: m') ++ '>' :: rest)
            = XML_as_text (XML.tag (b0 :: b') a2 c2)
              ++ (XML_as_text_list cs' ++ '<' :: '/' :: ((m0 :: m') ++ '>' :: rest)) := by
          rw [XML_as_text_list, List.append_assoc]
        obtain ⟨B0, hB0⟩ : ∃ B,
            XML_as_text (XML.tag (b0 :: b') a2 c2) = '<' :: b0 :: B :=
          ⟨_, by rw [XML_as_text, List.append_assoc, List.cons_append]⟩
        have h2 : XML_as_text (XML.tag (b0 :: b') a2 c2)
              ++ (XML_as_text_list cs' ++ '<' :: '/' :: ((m0 :: m') ++ '>' :: rest))
            = '<' :: b0 :: (B0
              ++ (XML_as_text_list cs' ++ '<' :: '/' :: ((m0 :: m') ++ '>' :: rest))) := by
          rw [hB0]
          simp only [List.cons_append]
        rw [h1, h2] at hfuel ⊢
        cases fuel with
        | zero => omega
        | succ f =>
        rw [XML_parse_contents_child_step f (m0 :: m') attrs acc b0 _ pos hb0c]
        rw [← h2]
        have hklt : k - 1 < k := by omega
        have hB0len : (XML_as_text (XML.tag (b0 :: b') a2 c2)).length = B0.length + 2 := by
          rw [hB0]
          simp
        obtain ⟨t2c, pos2t, hPT, hserT⟩ :=
          (IH (k - 1) hklt).1 (b0 :: b') a2 c2 (by omega) hxgood hxstab
            (XML_as_text_list cs' ++ '<' :: '/' :: ((m0 :: m') ++ '>' :: rest)) pos f (by
              rw [h2]
              simp only [List.length_cons, List.length_append] at hfuel ⊢
              omega)
        rw [hPT]
        dsimp only
        obtain ⟨cs2', pos2', hPC, hserC⟩ :=
          (IH (k - 1) hklt).2 cs' (by omega) hcs'good hcs'stab (m0 :: m') attrs
            (acc ++ [t2c]) rest pos2t f hname (by
              simp only [List.length_cons, List.length_append, hB0len] at hfuel ⊢
              omega)
        rw [hPC]
        refine ⟨t2c :: cs2', pos2', by simp, ?_⟩
        rw [XML_as_text_list, XML_as_text_list, hserT, hserC]
      | text t =>
        have hds := XML_drop_texts_shape (XML.text t :: cs')
        have hsplit := XML_ser_split (XML.text t :: cs')
        have hdsgood : XML_good_namesB_list (XML_drop_texts (XML.text t :: cs')) = true := by
          rw [XML_good_namesB_list_iff]
          intro y hy
          have hmem := XML_drop_texts_subset (XML.text t :: cs') y hy
          rcases List.mem_cons.mp hmem with rfl | hy2
      
          · exact hxgood
          · exact (XML_good_namesB_list_iff cs').mp hcs'good y hy2
        have hdsstab : XML_stableB_list (XML_drop_texts (XML.text t :: cs')) = true := by
          rw [XML_stableB_list_iff]
          intro y hy
          have hmem := XML_drop_texts_subset (XML.text t :: cs') y hy
          rcases List.mem_cons.mp hmem with rfl | hy2
          · exact hxstab
          · exact (XML_stableB_list_iff cs').mp hcs'stab y hy2
        have hszds : XML_size_list (XML_drop_texts (XML.text t :: cs')) ≤ k - 1 := by
          have h1 := XML_size_list_drop_le cs'
          have h2 : XML_drop_texts (XML.text t :: cs') = XML_drop_texts cs' := rfl
          rw [h2]
          rw [XML_size] at hsz
          omega
        have hklt : k - 1 < k := by omega
        cases hesc : XML_escape (XML_take_texts (XML.text t :: cs')) with
        | nil =>
          have hstr : XML_as_text_list (XML.text t :: cs')
                ++ '<' :: '/' :: ((m0 :: m') ++ '>' :: rest)
              = XML_as_text_list (XML_drop_texts (XML.text t :: cs'))
                ++ '<' :: '/' :: ((m0 :: m') ++ '>' :: rest) := by
            rw [hsplit, hesc, List.nil_append]
          rw [hstr] at hfuel ⊢
          obtain ⟨cs2, pos2, hPC, hserd⟩ :=
            (IH (k - 1) hklt).2 (XML_drop_texts (XML.text t :: cs')) hszds hdsgood
              hdsstab (m0 :: m') attrs acc rest pos fuel hname hfuel
          rw [hPC]
          exact ⟨cs2, pos2, rfl, by rw [hserd, hsplit, hesc, List.nil_append]⟩
        | cons e0 E =>
          obtain ⟨Z, hZ⟩ : ∃ Z,
              XML_as_text_list (XML_drop_texts (XML.text t :: cs'))
                ++ '<' :: '/' :: ((m0 :: m') ++ '>' :: rest) = '<' :: Z := by
            rcases hds with hnil | ⟨nn, aa, cc, rr, heq⟩
            · rw [hnil]
              exact ⟨'/' :: ((m0 :: m') ++ '>' :: rest),
                by rw [show XML_as_text_list ([] : List XML) = ([] : List Char) from rfl,
                  List.nil_append]⟩
            · rw [heq, XML_as_text_list]
              obtain ⟨B2, hB2⟩ : ∃ B, XML_as_text (XML.tag nn aa cc) = '<' :: B :=
                ⟨_, by rw [XML_as_text]⟩
              exact ⟨B2 ++ (XML_as_text_list rr
                  ++ '<' :: '/' :: ((m0 :: m') ++ '>' :: rest)),
                by rw [hB2]; simp [List.append_assoc]⟩
          have hstr : XML_as_text_list (XML.text t :: cs')
                ++ '<' :: '/' :: ((m0 :: m') ++ '>' :: rest)
              = e0 :: (E ++ '<' :: Z) := by
            rw [hsplit, List.append_assoc, hZ, hesc]
            rfl
          rw [hstr] at hfuel ⊢
          cases fuel with
          | zero => omega
          | succ f =>
          rw [XML_parse_contents_text_step f (m0 :: m') attrs acc e0 E Z pos (by
            rw [← hesc]
            exact XML_escape_islt _)]
          rw [show XML_unescape (e0 :: E) = XML_take_texts (XML.text t :: cs') from by
            rw [← hesc, XML_unescape_escape]]
          rw [← hZ]
          obtain ⟨cs2, pos2, hPC, hserd⟩ :=
            (IH (k - 1) hklt).2 (XML_drop_texts (XML.text t :: cs')) hszds hdsgood
              hdsstab (m0 :: m') attrs (acc ++ [XML.text (XML_take_texts (XML.text t :: cs'))])
              rest (pos + (e0 :: E).length) f hname (by
                have hlZ : (XML_as_text_list (XML_drop_texts (XML.text t :: cs'))
                    ++ '<' :: '/' :: ((m0 :: m') ++ '>' :: rest)).length = Z.length + 1 := by
                  rw [hZ]
                  simp
                simp only [List.length_cons, List.length_append] at hfuel hlZ ⊢
                omega)
          rw [hPC]
          refine ⟨XML.text (XML_take_texts (XML.text t :: cs')) :: cs2, pos2, by simp, ?_⟩
          rw [XML_as_text_list, hserd, hsplit]
          rfl

/-- Counterexample for Claim C2 as stated: the tree built from name t with
no attributes and a single empty Text child has only good names, yet its
serialization is an open-close pair that reparses to a childless element,
which reserializes in self-closed form: the two serializations differ, so
parse-then-serialize does not reproduce serialize on every well-named
built tree. -/
theorem C2_counterexample :
    XML_good_namesB (build ['t'] [] [XML.text []]) = true ∧
    XML_as_text (build ['t'] [] [XML.text []]) = "<t></t>".toList ∧
    (XML_parse "<t></t>".toList).map XML_as_text = some "<t/>".toList ∧
    "<t/>".toList ≠ "<t></t>".toList :=
  ⟨rfl, rfl, rfl, by decide⟩

/-- Claim C2 amended: for every tree built via build whose element and
attribute names are non-empty and consist of name characters, and in which
no element has a non-empty children list whose serialization is empty
(equivalently, no children list made up entirely of empty Text nodes),
XML_parse applied to the serialization succeeds and returns a node whose
serialization equals that of the original tree. -/
theorem C2_round_trip_amended (n : List Char) (attrs : List (List Char × List Char))
    (cs : List XML)
    (hgood : XML_good_namesB (build n attrs cs) = true)
    (hstab : XML_stableB (build n attrs cs) = true) :
    ∃ t2, XML_parse (XML_as_text (build n attrs cs)) = some t2 ∧
      XML_as_text t2 = XML_as_text (build n attrs cs) := by
  obtain ⟨t2, pos2, hP, hser⟩ :=
    (XML_round_trip_core (XML_size (XML.tag n attrs cs))).1 n attrs cs
      (le_refl _) hgood hstab [] 0
      (2 * (XML_as_text (XML.tag n attrs cs)).length + 2)
      (by simp)
  rw [List.append_nil] at hP
  refine ⟨t2, ?_, hser⟩
  rw [show build n attrs cs = XML.tag n attrs cs from rfl, XML_parse, hP]
  rfl

/-- Witness for the amended Claim C2 at a concrete tree with an attribute
whose value needs escaping, a Text child and a childless element child. -/
theorem C2_round_trip_amended_witness :
    XML_good_namesB
      (build ['a'] [(['k'], ['v', '&'])] [XML.text ['h'], build ['b'] [] []]) = true ∧
    XML_stableB
      (build ['a'] [(['k'], ['v', '&'])] [XML.text ['h'], build ['b'] [] []]) = true ∧
    ∃ t2,
      XML_parse (XML_as_text
        (build ['a'] [(['k'], ['v', '&'])] [XML.text ['h'], build ['b'] [] []])) = some t2 ∧
      XML_as_text t2 = XML_as_text
        (build ['a'] [(['k'], ['v', '&'])] [XML.text ['h'], build ['b'] [] []]) :=
  ⟨rfl, rfl,
   C2_round_trip_amended ['a'] [(['k'], ['v', '&'])]
     [XML.text ['h'], build ['b'] [] []] rfl rfl⟩
